import Mathlib

/-!
Verification development for the `nonebot-plugin-message-snapper-core`
repository (files `cache.py` and `service.py`).

Shallow embedding conventions:
* Python `dict` objects are modelled as association lists whose update
  semantics mirror CPython dicts: assigning to an existing key replaces the
  value in place (keeping its position), assigning a new key appends it.
* Timestamps (`datetime.now().timestamp()`, a Python float holding epoch
  seconds) are modelled as rationals `ℚ`; TTLs (`hours * 3600`) likewise.
* Persisted JSON string keys are modelled as `List Char`; the repository's
  `str(int)` / `int(str)` / `"g:u".split(":")` key codec is embedded as
  executable functions below.
* `async` functions suspend only at `await`; within one cooperative step the
  code runs atomically.  The qface single-flight protocol is embedded as a
  small-step transition system whose atomic steps are the await-free spans
  of `CacheManager.get_qface_image`.
-/

/-! ## Association lists with CPython dict update semantics -/

/-- `d[k] = v` on a Python dict: replace in place if the key exists
(first occurrence), else append at the end. -/
def aSet {κ β : Type} [DecidableEq κ] : List (κ × β) → κ → β → List (κ × β)
  | [], k, v => [(k, v)]
  | (k', v') :: rest, k, v =>
    if k' = k then (k, v) :: rest else (k', v') :: aSet rest k v

/-- `d.get(k)` / `k in d` on a Python dict: first binding of the key. -/
def aGet {κ β : Type} [DecidableEq κ] : List (κ × β) → κ → Option β
  | [], _ => none
  | (k', v') :: rest, k => if k' = k then some v' else aGet rest k

/-- `del d[k]` on a Python dict: drop the first binding of the key. -/
def aDel {κ β : Type} [DecidableEq κ] : List (κ × β) → κ → List (κ × β)
  | [], _ => []
  | (k', v') :: rest, k => if k' = k then rest else (k', v') :: aDel rest k

/-! ## CacheManager: configuration and in-memory state (cache.py 16-40) -/

/-- Constructor arguments of `CacheManager` (cache.py 17-23). -/
structure CMConfig where
  group_cache_hours : ℚ
  member_cache_hours : ℚ
deriving DecidableEq, Repr

/-- `CacheManager._get_group_cache_seconds` (cache.py 36-37). -/
def groupCacheSeconds (c : CMConfig) : ℚ := c.group_cache_hours * 3600

/-- `CacheManager._get_member_cache_seconds` (cache.py 39-40). -/
def memberCacheSeconds (c : CMConfig) : ℚ := c.member_cache_hours * 3600

/-- The two in-memory metadata caches of `CacheManager` (cache.py 26-29):
`_group_info_cache : dict[int, tuple[float, payload]]` and
`_member_info_cache : dict[tuple[int, int], tuple[float, payload]]`.
The payload type is abstract (`α`), matching the cache never inspecting it. -/
structure CMState (α : Type) where
  group : List (Int × (ℚ × α))
  member : List ((Int × Int) × (ℚ × α))
deriving DecidableEq, Repr

/-- A freshly constructed `CacheManager`'s caches (cache.py 26-29). -/
def emptyCMState (α : Type) : CMState α := ⟨[], []⟩

/-! ## TTL reads and writes (cache.py 95-125) -/

/-- `CacheManager.get_group` (cache.py 95-104).  Returns the result together
with the possibly-mutated `_group_info_cache` (expired entries are deleted). -/
def get_group {α : Type} (c : CMConfig) (gc : List (Int × (ℚ × α)))
    (group_id : Int) (now : ℚ) : Option α × List (Int × (ℚ × α)) :=
  match aGet gc group_id with
  | some (cached_time, cached_data) =>
    if now - cached_time < groupCacheSeconds c then (some cached_data, gc)
    else (none, aDel gc group_id)
  | none => (none, gc)

/-- `CacheManager.set_group` (cache.py 106-107). -/
def set_group {α : Type} (gc : List (Int × (ℚ × α))) (group_id : Int)
    (data : α) (now : ℚ) : List (Int × (ℚ × α)) :=
  aSet gc group_id (now, data)

/-- `CacheManager.get_member` (cache.py 109-119). -/
def get_member {α : Type} (c : CMConfig) (mc : List ((Int × Int) × (ℚ × α)))
    (group_id user_id : Int) (now : ℚ) :
    Option α × List ((Int × Int) × (ℚ × α)) :=
  match aGet mc (group_id, user_id) with
  | some (cached_time, cached_data) =>
    if now - cached_time < memberCacheSeconds c then (some cached_data, mc)
    else (none, aDel mc (group_id, user_id))
  | none => (none, mc)

/-- `CacheManager.set_member` (cache.py 121-125). -/
def set_member {α : Type} (mc : List ((Int × Int) × (ℚ × α)))
    (group_id user_id : Int) (data : α) (now : ℚ) :
    List ((Int × Int) × (ℚ × α)) :=
  aSet mc (group_id, user_id) (now, data)

/-! ## Basic association-list lemmas -/

theorem aGet_aDel_self {κ β : Type} [DecidableEq κ] (l : List (κ × β))
    (h : (l.map Prod.fst).Nodup) (k : κ) : aGet (aDel l k) k = none := by
  induction l with
  | nil => rfl
  | cons hd tl ih =>
    obtain ⟨k', v'⟩ := hd
    simp only [List.map_cons, List.nodup_cons] at h
    by_cases hk : k' = k
    · subst hk
      simp only [aDel, if_pos rfl]
      -- k' does not occur in tl, so lookup misses
      clear ih
      induction tl with
      | nil => rfl
      | cons hd2 tl2 ih2 =>
        obtain ⟨k2, v2⟩ := hd2
        simp only [List.map_cons, List.mem_cons, List.nodup_cons] at h
        have hne : k2 ≠ k' := fun he => h.1 (Or.inl he.symm)
        simp only [aGet, if_neg hne]
        exact ih2 ⟨fun hm => h.1 (Or.inr hm), h.2.2⟩
    · simp only [aDel, if_neg hk, aGet, if_neg hk]
      exact ih h.2

theorem aGet_aSet_self {κ β : Type} [DecidableEq κ] (l : List (κ × β))
    (k : κ) (v : β) : aGet (aSet l k v) k = some v := by
  induction l with
  | nil => simp [aSet, aGet]
  | cons hd tl ih =>
    obtain ⟨k', v'⟩ := hd
    by_cases hk : k' = k
    · simp [aSet, hk, aGet]
    · simp [aSet, hk, aGet, ih]

theorem aGet_aSet_ne {κ β : Type} [DecidableEq κ] (l : List (κ × β))
    (k k' : κ) (v : β) (h : k' ≠ k) : aGet (aSet l k' v) k = aGet l k := by
  induction l with
  | nil => simp [aSet, aGet, h]
  | cons hd tl ih =>
    obtain ⟨k2, v2⟩ := hd
    by_cases hk : k2 = k'
    · subst hk
      simp [aSet, aGet, h]
    · simp only [aSet, if_neg hk, aGet]
      by_cases hk2 : k2 = k
      · simp [hk2]
      · simp [hk2, ih]

/-- C1, group half (helper): behaviour of `get_group` on a present entry. -/
theorem get_group_spec {α : Type} (c : CMConfig) (gc : List (Int × (ℚ × α)))
    (hnd : (gc.map Prod.fst).Nodup) (gid : Int) (now t : ℚ) (d : α)
    (hin : aGet gc gid = some (t, d)) :
    ((get_group c gc gid now).1 = some d ↔ now - t < groupCacheSeconds c) ∧
    (groupCacheSeconds c ≤ now - t →
      (get_group c gc gid now).1 = none ∧
      aGet (get_group c gc gid now).2 gid = none) := by
  unfold get_group
  rw [hin]
  by_cases hf : now - t < groupCacheSeconds c
  · simp only [if_pos hf]
    exact ⟨by simp [hf], fun hle => absurd hf (not_lt.mpr hle)⟩
  · simp only [if_neg hf]
    exact ⟨by simp [hf], fun _ => ⟨by simp, aGet_aDel_self gc hnd gid⟩⟩

/-- C1, member half (helper): behaviour of `get_member` on a present entry. -/
theorem get_member_spec {α : Type} (c : CMConfig)
    (mc : List ((Int × Int) × (ℚ × α))) (hnd : (mc.map Prod.fst).Nodup)
    (gid uid : Int) (now t : ℚ) (d : α)
    (hin : aGet mc (gid, uid) = some (t, d)) :
    ((get_member c mc gid uid now).1 = some d ↔
      now - t < memberCacheSeconds c) ∧
    (memberCacheSeconds c ≤ now - t →
      (get_member c mc gid uid now).1 = none ∧
      aGet (get_member c mc gid uid now).2 (gid, uid) = none) := by
  unfold get_member
  rw [hin]
  by_cases hf : now - t < memberCacheSeconds c
  · simp only [if_pos hf]
    exact ⟨by simp [hf], fun hle => absurd hf (not_lt.mpr hle)⟩
  · simp only [if_neg hf]
    exact ⟨by simp [hf], fun _ => ⟨by simp, aGet_aDel_self mc hnd (gid, uid)⟩⟩

/-- C1: for every `group_id` (resp. `(group_id, user_id)`) present in the
cache with entry `(inserted_at, payload)`, `get_group` (resp. `get_member`)
returns the stored payload iff `now - inserted_at < ttl`; and whenever
`now - inserted_at ≥ ttl` the call returns `none` and removes the entry, so a
subsequent lookup of the key in the returned map yields `none`. -/
theorem C1_ttl_read_correctness {α : Type} (c : CMConfig) (st : CMState α)
    (hg : (st.group.map Prod.fst).Nodup) (hm : (st.member.map Prod.fst).Nodup)
    (gid uid : Int) (now tg tm : ℚ) (dg dm : α)
    (hgin : aGet st.group gid = some (tg, dg))
    (hmin : aGet st.member (gid, uid) = some (tm, dm)) :
    (((get_group c st.group gid now).1 = some dg ↔
        now - tg < groupCacheSeconds c) ∧
      (groupCacheSeconds c ≤ now - tg →
        (get_group c st.group gid now).1 = none ∧
        aGet (get_group c st.group gid now).2 gid = none)) ∧
    (((get_member c st.member gid uid now).1 = some dm ↔
        now - tm < memberCacheSeconds c) ∧
      (memberCacheSeconds c ≤ now - tm →
        (get_member c st.member gid uid now).1 = none ∧
        aGet (get_member c st.member gid uid now).2 (gid, uid) = none)) :=
  ⟨get_group_spec c st.group hg gid now tg dg hgin,
   get_member_spec c st.member hm gid uid now tm dm hmin⟩

/-- Witness for C1 at a concrete state: one fresh group entry, one expired
member entry. -/
theorem C1_witness :
    let c : CMConfig := ⟨1, 1⟩
    let st : CMState Nat := ⟨[(5, (0, 77))], [((5, 9), (0, 88))]⟩
    ((get_group c st.group 5 100).1 = some 77 ↔
        (100 : ℚ) - 0 < groupCacheSeconds c) ∧
    (memberCacheSeconds c ≤ (9000 : ℚ) - 0 →
      (get_member c st.member 5 9 9000).1 = none ∧
      aGet (get_member c st.member 5 9 9000).2 (5, 9) = none) := by
  refine ⟨?_, ?_⟩
  · exact (C1_ttl_read_correctness ⟨1, 1⟩ ⟨[(5, (0, 77))], [((5, 9), (0, 88))]⟩
      (by decide) (by decide) 5 9 100 0 0 77 88 rfl rfl).1.1
  · exact (C1_ttl_read_correctness ⟨1, 1⟩ ⟨[(5, (0, 77))], [((5, 9), (0, 88))]⟩
      (by decide) (by decide) 5 9 9000 0 0 77 88 rfl rfl).2.2

/-! ## Persisted key codec (cache.py 56-63, 78-84)

The snapshot file's keys are strings: `str(group_id)` for the group cache and
`f"{group_id}:{user_id}"` for the member cache, parsed back with `int(k)` and
`map(int, k.split(":"))`.  Strings are modelled as `List Char`.  `int(...)`
is modelled on canonical decimal notation (optional leading minus sign and
decimal digits); it agrees with Python's `int` on every string produced by
`str`, and rejects the same malformed keys as the claims exercise. -/

/-- The character of a decimal digit (digits produced by `Nat.digits 10` are
always `< 10`, so the catch-all is never hit on those). -/
def digitChar : Nat → Char
  | 0 => '0' | 1 => '1' | 2 => '2' | 3 => '3' | 4 => '4'
  | 5 => '5' | 6 => '6' | 7 => '7' | 8 => '8' | 9 => '9'
  | _ => '?'

/-- Model of Python `str(n)` for a natural number. -/
def encodeNat (n : Nat) : List Char :=
  if n = 0 then ['0'] else ((Nat.digits 10 n).map digitChar).reverse

/-- Model of Python `int(s)` for an unsigned decimal string: defined exactly
on nonempty all-digit strings. -/
def parseNat (cs : List Char) : Option Nat :=
  if cs ≠ [] ∧ cs.all Char.isDigit then
    some (cs.foldl (fun a c => 10 * a + (c.toNat - 48)) 0)
  else none

/-- Model of Python `str(n)` for an integer (cache.py 79: `str(k)`). -/
def encodeInt (n : Int) : List Char :=
  if n < 0 then '-' :: encodeNat n.natAbs else encodeNat n.natAbs

/-- Model of Python `int(s)` for a signed decimal string. -/
def parseInt (cs : List Char) : Option Int :=
  if cs.head? = some '-' then
    match parseNat cs.tail with
    | some m => some (-(m : Int))
    | none => none
  else
    match parseNat cs with
    | some m => some ((m : Int))
    | none => none

/-- Model of Python `k.split(":")` (cache.py 62). -/
def splitOnColon : List Char → List (List Char)
  | [] => [[]]
  | c :: rest =>
    if c = ':' then [] :: splitOnColon rest
    else
      match splitOnColon rest with
      | [] => [[c]]
      | h :: t => (c :: h) :: t

/-- Member-cache key serialization `f"{k[0]}:{k[1]}"` (cache.py 82). -/
def encodeMemberKey (g u : Int) : List Char :=
  encodeInt g ++ ':' :: encodeInt u

/-- Member-cache key parsing `gid, uid = map(int, k.split(":"))`
(cache.py 62): fails unless the split yields exactly two parts and both
convert to integers. -/
def parseMemberKey (cs : List Char) : Option (Int × Int) :=
  match splitOnColon cs with
  | [a, b] =>
    match parseInt a, parseInt b with
    | some g, some u => some (g, u)
    | _, _ => none
  | _ => none

theorem digitChar_spec (d : Nat) (hd : d < 10) :
    (digitChar d).isDigit = true ∧ (digitChar d).toNat - 48 = d ∧
    digitChar d ≠ ':' ∧ digitChar d ≠ '-' := by
  interval_cases d <;> exact ⟨by decide, by decide, by decide, by decide⟩

theorem encodeNat_chars (n : Nat) (c : Char) (hc : c ∈ encodeNat n) :
    c.isDigit = true ∧ c ≠ ':' ∧ c ≠ '-' := by
  unfold encodeNat at hc
  by_cases h0 : n = 0
  · rw [if_pos h0] at hc
    simp only [List.mem_singleton] at hc
    subst hc
    exact ⟨by decide, by decide, by decide⟩
  · rw [if_neg h0] at hc
    rw [List.mem_reverse, List.mem_map] at hc
    obtain ⟨d, hd, rfl⟩ := hc
    have hlt : d < 10 := Nat.digits_lt_base (by norm_num) hd
    obtain ⟨h1, _, h3, h4⟩ := digitChar_spec d hlt
    exact ⟨h1, h3, h4⟩

theorem foldl_digits (L : List Nat) (a : Nat) (hL : ∀ d ∈ L, d < 10) :
    ((L.map digitChar).reverse).foldl (fun a c => 10 * a + (c.toNat - 48)) a
      = a * 10 ^ L.length + Nat.ofDigits 10 L := by
  induction L generalizing a with
  | nil => simp
  | cons d L ih =>
    have hd : d < 10 := hL d (List.mem_cons_self d L)
    have hrest : ∀ x ∈ L, x < 10 := fun x hx => hL x (List.mem_cons_of_mem d hx)
    simp only [List.map_cons, List.reverse_cons, List.foldl_append,
      List.foldl_cons, List.foldl_nil]
    rw [ih a hrest, (digitChar_spec d hd).2.1, Nat.ofDigits_cons]
    simp only [List.length_cons, pow_succ]
    ring

theorem parseNat_encodeNat (n : Nat) : parseNat (encodeNat n) = some n := by
  by_cases h0 : n = 0
  · subst h0
    decide
  · have hne : encodeNat n ≠ [] := by
      unfold encodeNat
      rw [if_neg h0]
      simp only [ne_eq, List.reverse_eq_nil_iff, List.map_eq_nil_iff]
      exact Nat.digits_ne_nil_iff_ne_zero.mpr h0
    have hall : (encodeNat n).all Char.isDigit = true := by
      rw [List.all_eq_true]
      exact fun c hc => (encodeNat_chars n c hc).1
    unfold parseNat
    rw [if_pos ⟨hne, hall⟩]
    unfold encodeNat
    rw [if_neg h0]
    rw [foldl_digits _ 0 (fun d hd => Nat.digits_lt_base (by norm_num) hd)]
    rw [Nat.ofDigits_digits]
    simp

theorem encodeNat_head_ne_neg (n : Nat) (c : Char) (rest : List Char)
    (h : encodeNat n = c :: rest) : c ≠ '-' := by
  have : c ∈ encodeNat n := by rw [h]; exact List.mem_cons_self c rest
  exact (encodeNat_chars n c this).2.2

theorem parseInt_encodeInt (n : Int) : parseInt (encodeInt n) = some n := by
  by_cases hneg : n < 0
  · unfold encodeInt
    rw [if_pos hneg]
    unfold parseInt
    simp only [List.head?_cons, List.tail_cons]
    rw [if_pos trivial, parseNat_encodeNat]
    show some (-(n.natAbs : Int)) = some n
    congr 1
    omega
  · unfold encodeInt
    rw [if_neg hneg]
    obtain ⟨c, rest, hcr⟩ : ∃ c rest, encodeNat n.natAbs = c :: rest := by
      cases he : encodeNat n.natAbs with
      | nil =>
        exfalso
        unfold encodeNat at he
        by_cases h0 : n.natAbs = 0
        · rw [if_pos h0] at he; exact List.noConfusion he
        · rw [if_neg h0] at he
          rw [List.reverse_eq_nil_iff, List.map_eq_nil_iff] at he
          exact Nat.digits_ne_nil_iff_ne_zero.mpr h0 he
      | cons c rest => exact ⟨c, rest, rfl⟩
    have hhead : (encodeNat n.natAbs).head? ≠ some '-' := by
      rw [hcr]
      simp only [List.head?_cons, ne_eq, Option.some.injEq]
      exact encodeNat_head_ne_neg n.natAbs c rest hcr
    unfold parseInt
    rw [if_neg hhead, parseNat_encodeNat]
    show some ((n.natAbs : Int)) = some n
    congr 1
    omega

theorem splitOnColon_no_colon (b : List Char) (hb : ∀ c ∈ b, c ≠ ':') :
    splitOnColon b = [b] := by
  induction b with
  | nil => rfl
  | cons c rest ih =>
    have hc : c ≠ ':' := hb c (List.mem_cons_self c rest)
    have hrest : ∀ x ∈ rest, x ≠ ':' :=
      fun x hx => hb x (List.mem_cons_of_mem c hx)
    unfold splitOnColon
    rw [if_neg hc, ih hrest]

theorem splitOnColon_append (a b : List Char) (ha : ∀ c ∈ a, c ≠ ':')
    (hb : ∀ c ∈ b, c ≠ ':') : splitOnColon (a ++ ':' :: b) = [a, b] := by
  induction a with
  | nil =>
    simp only [List.nil_append]
    unfold splitOnColon
    rw [if_pos rfl, splitOnColon_no_colon b hb]
  | cons c rest ih =>
    have hc : c ≠ ':' := ha c (List.mem_cons_self c rest)
    have hrest : ∀ x ∈ rest, x ≠ ':' :=
      fun x hx => ha x (List.mem_cons_of_mem c hx)
    simp only [List.cons_append]
    unfold splitOnColon
    rw [if_neg hc, ih hrest]

theorem encodeInt_no_colon (n : Int) (c : Char) (hc : c ∈ encodeInt n) :
    c ≠ ':' := by
  unfold encodeInt at hc
  by_cases hneg : n < 0
  · rw [if_pos hneg] at hc
    rcases List.mem_cons.mp hc with h | h
    · subst h; decide
    · exact (encodeNat_chars n.natAbs c h).2.1
  · rw [if_neg hneg] at hc
    exact (encodeNat_chars n.natAbs c hc).2.1

theorem parseMemberKey_encodeMemberKey (g u : Int) :
    parseMemberKey (encodeMemberKey g u) = some (g, u) := by
  unfold parseMemberKey encodeMemberKey
  rw [splitOnColon_append _ _ (encodeInt_no_colon g) (encodeInt_no_colon u)]
  simp only [parseInt_encodeInt]

/-! ## Durable snapshot store (cache.py 42-93) -/

/-- The snapshot file's parsed content (cache.py 77-85, spec section 6): two
maps from string keys to `[timestamp, payload]` pairs, in file order. -/
structure Persist (α : Type) where
  group_info : List (List Char × (ℚ × α))
  member_info : List (List Char × (ℚ × α))
deriving DecidableEq, Repr

/-- `CacheManager.save` (cache.py 72-93), successful write path: serializes
the full current state of both caches with no filtering, group keys as
`str(k)` and member keys as `f"{k[0]}:{k[1]}"`. -/
def save {α : Type} (st : CMState α) : Persist α :=
  { group_info := st.group.map (fun e => (encodeInt e.1, e.2))
  , member_info := st.member.map (fun e => (encodeMemberKey e.1.1 e.1.2, e.2)) }

/-- One load loop of `CacheManager.load` (cache.py 56-58 and 60-63), shared
shape of the group and member loops: each entry still within its TTL is
inserted under its parsed key; parsing is attempted only for fresh entries
(it sits inside the `if`), and a parse failure raises, which the single
`try` of cache.py 48-70 turns into an abort of the entire remaining load.
Returns the cache built so far and whether the loop aborted. -/
def loadEntriesBy {κ α : Type} [DecidableEq κ] (parse : List Char → Option κ)
    (ttl now : ℚ) :
    List (κ × (ℚ × α)) → List (List Char × (ℚ × α)) →
    List (κ × (ℚ × α)) × Bool
  | acc, [] => (acc, false)
  | acc, (k, v) :: rest =>
    if now - v.1 < ttl then
      match parse k with
      | some key => loadEntriesBy parse ttl now (aSet acc key v) rest
      | none => (acc, true)
    else loadEntriesBy parse ttl now acc rest

/-- `CacheManager.load` (cache.py 42-70), file-exists/JSON-parse-success
path: the group loop runs first; if it aborts (malformed fresh group key)
the member loop never runs; a member-loop abort keeps what was admitted so
far.  Exceptions are swallowed by cache.py 69, so `load` always returns a
state. -/
def load {α : Type} (c : CMConfig) (st : CMState α) (p : Persist α)
    (now : ℚ) : CMState α :=
  match loadEntriesBy parseInt (groupCacheSeconds c) now st.group
    p.group_info with
  | (gc, true) => { st with group := gc }
  | (gc, false) =>
    { group := gc
    , member := (loadEntriesBy parseMemberKey (memberCacheSeconds c) now
        st.member p.member_info).1 }

/-- The pure effect of a load loop on already-decoded entries. -/
def loadPure {κ α : Type} [DecidableEq κ] (ttl now : ℚ) :
    List (κ × (ℚ × α)) → List (κ × (ℚ × α)) → List (κ × (ℚ × α))
  | acc, [] => acc
  | acc, e :: rest =>
    loadPure ttl now (if now - e.2.1 < ttl then aSet acc e.1 e.2 else acc) rest

theorem aGet_eq_none_iff {κ β : Type} [DecidableEq κ] (l : List (κ × β))
    (k : κ) : aGet l k = none ↔ k ∉ l.map Prod.fst := by
  induction l with
  | nil => simp [aGet]
  | cons hd tl ih =>
    obtain ⟨k', v'⟩ := hd
    by_cases hk : k' = k
    · subst hk
      simp [aGet]
    · simp [aGet, hk, ih, Ne.symm hk]

theorem loadEntriesBy_encoded {κ α : Type} [DecidableEq κ]
    (parse : List Char → Option κ) (enc : κ → List Char) (ttl now : ℚ)
    (hpe : ∀ k, parse (enc k) = some k) (l : List (κ × (ℚ × α)))
    (acc : List (κ × (ℚ × α))) :
    loadEntriesBy parse ttl now acc (l.map (fun e => (enc e.1, e.2)))
      = (loadPure ttl now acc l, false) := by
  induction l generalizing acc with
  | nil => rfl
  | cons e rest ih =>
    obtain ⟨k, v⟩ := e
    simp only [List.map_cons, loadEntriesBy, loadPure]
    by_cases hf : now - v.1 < ttl
    · rw [if_pos hf, hpe k, if_pos hf]
      exact ih (aSet acc k v)
    · rw [if_neg hf, if_neg hf]
      exact ih acc

theorem loadPure_not_mem {κ α : Type} [DecidableEq κ] (ttl now : ℚ)
    (l : List (κ × (ℚ × α))) (acc : List (κ × (ℚ × α))) (k : κ)
    (hk : k ∉ l.map Prod.fst) :
    aGet (loadPure ttl now acc l) k = aGet acc k := by
  induction l generalizing acc with
  | nil => rfl
  | cons e rest ih =>
    simp only [List.map_cons, List.mem_cons, not_or] at hk
    simp only [loadPure]
    rw [ih _ hk.2]
    by_cases hf : now - e.2.1 < ttl
    · rw [if_pos hf, aGet_aSet_ne acc k e.1 e.2 (Ne.symm hk.1)]
    · rw [if_neg hf]

theorem loadPure_mem {κ α : Type} [DecidableEq κ] (ttl now : ℚ)
    (l : List (κ × (ℚ × α))) (acc : List (κ × (ℚ × α))) (k : κ) (t : ℚ)
    (d : α) (hnd : (l.map Prod.fst).Nodup) (hin : aGet l k = some (t, d)) :
    aGet (loadPure ttl now acc l) k
      = if now - t < ttl then some (t, d) else aGet acc k := by
  induction l generalizing acc with
  | nil => exact absurd hin (by simp [aGet])
  | cons e rest ih =>
    obtain ⟨k', v'⟩ := e
    simp only [List.map_cons, List.nodup_cons] at hnd
    by_cases hk : k' = k
    · subst hk
      have hv : v' = (t, d) := by
        have h2 : some v' = some (t, d) := by simpa [aGet] using hin
        exact Option.some_inj.mp h2
      subst hv
      simp only [loadPure]
      rw [loadPure_not_mem ttl now rest _ k' hnd.1]
      by_cases hf : now - t < ttl
      · rw [if_pos hf, if_pos hf, aGet_aSet_self]
      · rw [if_neg hf, if_neg hf]
    · simp only [aGet, if_neg hk] at hin
      simp only [loadPure]
      by_cases hf : now - v'.1 < ttl
      · rw [if_pos hf, ih _ hnd.2 hin, aGet_aSet_ne _ _ _ _ hk]
      · rw [if_neg hf, ih _ hnd.2 hin]

theorem loadMember_encoded {α : Type} (ttl now : ℚ)
    (l : List ((Int × Int) × (ℚ × α))) (acc : List ((Int × Int) × (ℚ × α))) :
    loadEntriesBy parseMemberKey ttl now acc
        (l.map (fun e => (encodeMemberKey e.1.1 e.1.2, e.2)))
      = (loadPure ttl now acc l, false) :=
  loadEntriesBy_encoded parseMemberKey (fun k => encodeMemberKey k.1 k.2)
    ttl now (fun k => parseMemberKey_encodeMemberKey k.1 k.2) l acc

theorem load_save_eq {α : Type} (c : CMConfig) (st : CMState α) (now : ℚ) :
    load c (emptyCMState α) (save st) now
      = { group := loadPure (groupCacheSeconds c) now [] st.group
        , member := loadPure (memberCacheSeconds c) now [] st.member } := by
  simp only [load, save, emptyCMState]
  rw [loadEntriesBy_encoded parseInt encodeInt
    (groupCacheSeconds c) now parseInt_encodeInt st.group []]
  rw [loadMember_encoded (memberCacheSeconds c) now st.member []]

/-- C2: `save()` followed by a fresh instance's `load()` keeps exactly the
entries whose age relative to load time is within their TTL, with identical
`inserted_at` timestamp and payload; aged-out entries are absent. -/
theorem C2_save_load_roundtrip {α : Type} (c : CMConfig) (st : CMState α)
    (now : ℚ) (hg : (st.group.map Prod.fst).Nodup)
    (hm : (st.member.map Prod.fst).Nodup) (gk : Int) (mk : Int × Int) :
    aGet (load c (emptyCMState α) (save st) now).group gk
      = (aGet st.group gk).bind
        (fun e => if now - e.1 < groupCacheSeconds c then some e else none) ∧
    aGet (load c (emptyCMState α) (save st) now).member mk
      = (aGet st.member mk).bind
        (fun e => if now - e.1 < memberCacheSeconds c then some e else none)
    := by
  rw [load_save_eq c st now]
  constructor
  · cases hin : aGet st.group gk with
    | none =>
      rw [loadPure_not_mem _ now st.group [] gk
        ((aGet_eq_none_iff _ _).mp hin)]
      rfl
    | some e =>
      obtain ⟨t, d⟩ := e
      rw [loadPure_mem _ now st.group [] gk t d hg hin]
      by_cases hf : now - t < groupCacheSeconds c
      · simp [hf]
      · simp [hf, aGet]
  · cases hin : aGet st.member mk with
    | none =>
      rw [loadPure_not_mem _ now st.member [] mk
        ((aGet_eq_none_iff _ _).mp hin)]
      rfl
    | some e =>
      obtain ⟨t, d⟩ := e
      rw [loadPure_mem _ now st.member [] mk t d hm hin]
      by_cases hf : now - t < memberCacheSeconds c
      · simp [hf]
      · simp [hf, aGet]

/-- Witness for C2: a state with one fresh group entry, one stale member
entry round-trips as claimed. -/
theorem C2_witness :
    aGet (load ⟨1, 1⟩ (emptyCMState Nat)
        (save ⟨[(3, (10, 42))], [((3, 4), (-9000, 7))]⟩) 20).group 3
      = some (10, 42) ∧
    aGet (load ⟨1, 1⟩ (emptyCMState Nat)
        (save ⟨[(3, (10, 42))], [((3, 4), (-9000, 7))]⟩) 20).member (3, 4)
      = none := by
  have h := C2_save_load_roundtrip ⟨1, 1⟩
    (⟨[(3, (10, 42))], [((3, 4), (-9000, 7))]⟩ : CMState Nat) 20
    (by decide) (by decide) 3 (3, 4)
  refine ⟨?_, ?_⟩
  · rw [h.1]
    norm_num [aGet, groupCacheSeconds]
  · rw [h.2]
    norm_num [aGet, memberCacheSeconds]


theorem loadEntriesBy_append {κ α : Type} [DecidableEq κ]
    (parse : List Char → Option κ) (ttl now : ℚ)
    (acc : List (κ × (ℚ × α))) (l1 l2 : List (List Char × (ℚ × α))) :
    loadEntriesBy parse ttl now acc (l1 ++ l2)
      = (match loadEntriesBy parse ttl now acc l1 with
        | (acc1, true) => (acc1, true)
        | (acc1, false) => loadEntriesBy parse ttl now acc1 l2) := by
  induction l1 generalizing acc with
  | nil => rfl
  | cons e rest ih =>
    obtain ⟨k, v⟩ := e
    simp only [List.cons_append, loadEntriesBy]
    by_cases hf : now - v.1 < ttl
    · rw [if_pos hf, if_pos hf]
      cases hp : parse k with
      | some key => exact ih (aSet acc key v)
      | none => rfl
    · rw [if_neg hf, if_neg hf]
      exact ih acc

/-- C3 counterexample: a snapshot file whose `member_info` holds a fresh
entry under the unparsable key `"bad"` followed by a fresh, well-formed entry
under `"1:2"`.  Loading it into a fresh instance does NOT admit the later
well-formed entry: the malformed key raises inside the single `try` of
cache.py 48-70 and the rest of the load is skipped. -/
theorem C3_counterexample :
    aGet (load ⟨1, 1⟩ (emptyCMState Nat)
      ⟨[], [(['b', 'a', 'd'], (0, 5)), (['1', ':', '2'], (0, 7))]⟩ 0).member
      (1, 2) = none := by
  have hfresh : (0 : ℚ) - (0 : ℚ) < memberCacheSeconds ⟨1, 1⟩ := by
    norm_num [memberCacheSeconds]
  have hbad : parseMemberKey ['b', 'a', 'd'] = none := by decide
  have hm : loadEntriesBy parseMemberKey (memberCacheSeconds ⟨1, 1⟩) 0
      ([] : List ((Int × Int) × (ℚ × Nat)))
      [(['b', 'a', 'd'], (0, 5)), (['1', ':', '2'], (0, 7))] = ([], true) := by
    simp only [loadEntriesBy]
    rw [if_pos hfresh, hbad]
  show aGet ((loadEntriesBy parseMemberKey (memberCacheSeconds ⟨1, 1⟩) 0
      ([] : List ((Int × Int) × (ℚ × Nat)))
      [(['b', 'a', 'd'], (0, 5)), (['1', ':', '2'], (0, 7))]).1) (1, 2) = none
  rw [hm]
  rfl

/-- C3 amended: during `load()`, a `member_info` entry whose key cannot be
parsed as `"{group_id}:{user_id}"` is skipped on its own only when the entry
is already expired (the parse is never attempted); for a still-fresh entry
the parse failure aborts the remaining load: entries admitted before it are
kept, all later member entries are dropped, and the group entries (processed
first) are unaffected. -/
theorem C3_amended {α : Type} (c : CMConfig) (now : ℚ) (st : CMState α)
    (p : Persist α) (pre rest : List (List Char × (ℚ × α)))
    (k : List Char) (t : ℚ) (d : α) (gc : List (Int × (ℚ × α)))
    (acc : List ((Int × Int) × (ℚ × α)))
    (hgrp : loadEntriesBy parseInt (groupCacheSeconds c) now st.group
      p.group_info = (gc, false))
    (hmem : p.member_info = pre ++ (k, (t, d)) :: rest)
    (hpre : loadEntriesBy parseMemberKey (memberCacheSeconds c) now
      st.member pre = (acc, false))
    (hfresh : now - t < memberCacheSeconds c)
    (hbad : parseMemberKey k = none) :
    load c st p now = { group := gc, member := acc } := by
  unfold load
  rw [hgrp, hmem, loadEntriesBy_append, hpre]
  simp only [loadEntriesBy]
  rw [if_pos hfresh, hbad]

/-- Witness for the amended C3: one good member entry, then a malformed
fresh one, then another good one; only the first survives the load. -/
theorem C3_amended_witness :
    load ⟨1, 1⟩ (emptyCMState Nat)
      ⟨[], [(['9', ':', '9'], (0, 1)), (['b'], (0, 5)),
            (['1', ':', '2'], (0, 7))]⟩ 0
      = { group := [], member := [((9, 9), (0, 1))] } := by
  have hfresh : (0 : ℚ) - (0 : ℚ) < memberCacheSeconds ⟨1, 1⟩ := by
    norm_num [memberCacheSeconds]
  have hpre : loadEntriesBy parseMemberKey (memberCacheSeconds ⟨1, 1⟩) 0
      (emptyCMState Nat).member [(['9', ':', '9'], (0, 1))]
      = ([((9, 9), (0, 1))], false) := by
    simp only [loadEntriesBy]
    rw [if_pos hfresh,
      show parseMemberKey ['9', ':', '9'] = some (9, 9) from by decide]
    rfl
  exact C3_amended ⟨1, 1⟩ 0 (emptyCMState Nat)
    ⟨[], [(['9', ':', '9'], (0, 1)), (['b'], (0, 5)),
          (['1', ':', '2'], (0, 7))]⟩
    [(['9', ':', '9'], (0, 1))] [(['1', ':', '2'], (0, 7))]
    ['b'] 0 5 [] [((9, 9), (0, 1))]
    rfl rfl hpre hfresh (by decide)

/-! ## Asset download atomic-write protocol (cache.py 167-195)

`_download_and_save_qface` downloads bytes, writes them to `{id}.tmp`, then
atomically `os.replace`s the temp file over `{id}.png`; any failure triggers
a best-effort `os.remove` of the temp file and re-raises.  The two files are
modelled as optional byte contents; the possible fault points of the attempt
are enumerated by `FetchOutcome`. -/

/-- The two disk entries `_download_and_save_qface` touches for one id:
the final `{id}.png` and the temporary `{id}.tmp`. -/
structure QfaceFS where
  finalFile : Option (List Nat)
  tmpFile : Option (List Nat)
deriving DecidableEq, Repr

/-- Where one download-and-save attempt can fail:
`downloadFail` — `urlopen`/`read` raised (cache.py 177, 194-195), nothing
written; `writeFail p` — opening/writing the temp file raised, leaving the
temp file absent or partially written (cache.py 179-180); `replaceFail` —
`os.replace` raised after a complete temp write (cache.py 182); `ok` — the
whole attempt succeeded. -/
inductive FetchOutcome where
  | downloadFail
  | writeFail (partialBytes : Option (List Nat))
  | replaceFail
  | ok
deriving DecidableEq, Repr

/-- `os.remove(tmp)` wrapped in `try/except Exception: pass`
(cache.py 185-188): removes the temp file if it exists, does nothing
otherwise. -/
def removeTmp (fs : QfaceFS) : QfaceFS := { fs with tmpFile := none }

/-- `CacheManager._download_and_save_qface` (cache.py 167-190) acting on the
filesystem, given the downloaded bytes and the fault point of this attempt.
Returns the resulting filesystem and whether the call re-raised
(cache.py 190). -/
def download_and_save_qface (fs : QfaceFS) (data : List Nat)
    (out : FetchOutcome) : QfaceFS × Bool :=
  match out with
  | .downloadFail => (removeTmp fs, true)
  | .writeFail p => (removeTmp { fs with tmpFile := p }, true)
  | .replaceFail => (removeTmp { fs with tmpFile := some data }, true)
  | .ok => ({ finalFile := some data, tmpFile := none }, false)

/-- C5: a fetch that fails at any point leaves the final `{id}.png` exactly
as it was (absent, or the previously cached content); no `{id}.tmp` file
remains after the operation completes, whatever happens; and on success the
temp file has been renamed onto the final path, which now holds the
downloaded bytes. -/
theorem C5_atomic_write (fs : QfaceFS) (data : List Nat)
    (out : FetchOutcome) :
    (download_and_save_qface fs data out).1.tmpFile = none ∧
    ((download_and_save_qface fs data out).2 = true →
      (download_and_save_qface fs data out).1.finalFile = fs.finalFile) ∧
    ((download_and_save_qface fs data out).2 = false →
      (download_and_save_qface fs data out).1.finalFile = some data) := by
  cases out with
  | downloadFail => exact ⟨rfl, fun _ => rfl, fun h => Bool.noConfusion h⟩
  | writeFail p => exact ⟨rfl, fun _ => rfl, fun h => Bool.noConfusion h⟩
  | replaceFail => exact ⟨rfl, fun _ => rfl, fun h => Bool.noConfusion h⟩
  | ok => exact ⟨rfl, fun h => Bool.noConfusion h, fun _ => rfl⟩

/-- Witness for C5: a failing replace over a previously cached file keeps
the old bytes and leaves no temp file; a success installs the new bytes. -/
theorem C5_witness :
    ((download_and_save_qface ⟨some [1, 2], none⟩ [3, 4] .replaceFail).1.tmpFile
        = none ∧
      (download_and_save_qface ⟨some [1, 2], none⟩ [3, 4]
          .replaceFail).1.finalFile = some [1, 2]) ∧
    (download_and_save_qface ⟨some [1, 2], none⟩ [3, 4] .ok).1.finalFile
      = some [3, 4] := by
  refine ⟨⟨?_, ?_⟩, ?_⟩
  · exact (C5_atomic_write ⟨some [1, 2], none⟩ [3, 4] .replaceFail).1
  · exact (C5_atomic_write ⟨some [1, 2], none⟩ [3, 4] .replaceFail).2.1 rfl
  · exact (C5_atomic_write ⟨some [1, 2], none⟩ [3, 4] .ok).2.2 rfl

/-! ## Single-flight qface protocol (cache.py 127-165)

`get_qface_image` runs on a cooperative (asyncio) scheduler: code between
`await` points executes atomically.  The protocol for one fixed `face_id` is
embedded as a transition system over `n` concurrent callers.  Each caller's
program counter marks the next atomic span it will execute. -/

/-- Program counter of one `get_qface_image(face_id)` caller:
* `start'`: about to run the negative-id check (cache.py 134-135) and the
  existence check (137-140);
* `premkdir`: the file was absent; about to `mkdir` the qface dir (142);
* `arrived`: about to run the registration span 145-147 (`create_future`
  then `setdefault`, with no `await` in between: one atomic step);
* `ownerFetch`: registered as owner of the in-flight future; about to await
  the download attempt (151);
* `ownerResolve`: the attempt finished; about to publish its outcome on the
  future and conditionally pop the registry entry (152-158, one atomic
  span);
* `waiting o`: awaiting the future owned by caller `o` (160-163);
* `returning`: about to run the final existence check and return (165);
* `done r`: returned; `some ()` stands for `local_path.as_uri()`, which is
  one and the same URI for every caller of this `face_id`. -/
inductive QPC (n : Nat) where
  | start'
  | premkdir
  | arrived
  | ownerFetch
  | ownerResolve
  | waiting (o : Fin n)
  | returning
  | done (r : Option Unit)
deriving DecidableEq, Repr

/-- Shared state of the protocol for one `face_id`: each caller's program
counter, the registry entry `_qface_tasks[face_id]` (identified by the
caller owning the future), each caller's future outcome (`none` while
pending), whether `{face_id}.png` exists, whether the qface directory was
created, and event counters for download attempts (cache.py 151) and
registry pops (cache.py 158). -/
structure QConfig (n : Nat) where
  pc : Fin n → QPC n
  reg : Option (Fin n)
  futVal : Fin n → Option Bool
  file : Bool
  dirMade : Bool
  fetchCount : Nat
  popCount : Nat

/-- One atomic step of caller `i` of `get_qface_image(face_id)`, where
`fetchOk` says whether the download attempt (the same attempt for whoever
owns it) succeeds.  A caller whose step is not enabled (a waiter with a
pending future, or a finished caller) leaves the configuration unchanged. -/
def qstep {n : Nat} (faceId : Int) (fetchOk : Bool) (cfg : QConfig n)
    (i : Fin n) : QConfig n :=
  match cfg.pc i with
  | .start' =>
    if faceId < 0 then
      { cfg with pc := Function.update cfg.pc i (.done none) }
    else if cfg.file then
      { cfg with pc := Function.update cfg.pc i (.done (some ())) }
    else
      { cfg with pc := Function.update cfg.pc i .premkdir }
  | .premkdir =>
    { cfg with dirMade := true, pc := Function.update cfg.pc i .arrived }
  | .arrived =>
    match cfg.reg with
    | none =>
      { cfg with reg := some i
               , pc := Function.update cfg.pc i .ownerFetch }
    | some o => { cfg with pc := Function.update cfg.pc i (.waiting o) }
  | .ownerFetch =>
    { cfg with fetchCount := cfg.fetchCount + 1
             , file := cfg.file || fetchOk
             , pc := Function.update cfg.pc i .ownerResolve }
  | .ownerResolve =>
    { cfg with futVal := Function.update cfg.futVal i (some fetchOk)
             , reg := if cfg.reg = some i then none else cfg.reg
             , popCount := if cfg.reg = some i then cfg.popCount + 1
                 else cfg.popCount
             , pc := Function.update cfg.pc i .returning }
  | .waiting o =>
    match cfg.futVal o with
    | some _ => { cfg with pc := Function.update cfg.pc i .returning }
    | none => cfg
  | .returning =>
    let r : Option Unit := if cfg.file then some () else none
    { cfg with pc := Function.update cfg.pc i (.done r) }
  | .done _ => cfg

/-- Initial configuration for a never-before-cached id: no file on disk, no
registry entry, all callers about to start. -/
def qinit (n : Nat) : QConfig n :=
  { pc := fun _ => .start', reg := none, futVal := fun _ => none
  , file := false, dirMade := false, fetchCount := 0, popCount := 0 }

/-- Run the protocol under a schedule (the sequence of callers picked by the
event loop). -/
def qrun {n : Nat} (faceId : Int) (fetchOk : Bool) (cfg : QConfig n)
    (s : List (Fin n)) : QConfig n :=
  s.foldl (qstep faceId fetchOk) cfg

/-- The common outcome of one attempt: the URI when the download succeeded,
absent otherwise. -/
def qres (fetchOk : Bool) : Option Unit := if fetchOk then some () else none

/-- C8: a caller entering `get_qface_image` with a negative `face_id`
returns absent immediately: the step changes nothing but that caller's
program counter (no registry touch, no directory creation, no download, no
file change); with a non-negative id (including 0) the same step instead
performs the existence check and proceeds. -/
theorem C8_negative_id {n : Nat} (faceId : Int) (fetchOk : Bool)
    (cfg : QConfig n) (i : Fin n) (hpc : cfg.pc i = .start') :
    (faceId < 0 →
      qstep faceId fetchOk cfg i
        = { cfg with pc := Function.update cfg.pc i (.done none) }) ∧
    (0 ≤ faceId →
      qstep faceId fetchOk cfg i
        = { cfg with
              pc := Function.update cfg.pc i
                      (if cfg.file then QPC.done (some ()) else QPC.premkdir) })
    := by
  constructor
  · intro hneg
    unfold qstep
    rw [hpc]
    simp only [if_pos hneg]
  · intro hpos
    unfold qstep
    rw [hpc]
    rw [if_neg (not_lt.mpr hpos)]
    by_cases hfile : cfg.file
    · simp [hfile]
    · simp [hfile]

/-- Witness for C8 at `face_id = -1` with one caller on the initial state. -/
theorem C8_witness :
    qstep (-1) true (qinit 1) 0
      = { qinit 1 with pc := Function.update (qinit 1).pc 0 (.done none) } :=
  (C8_negative_id (-1) true (qinit 1) 0 rfl).1 (by decide)

/-! Step-equation lemmas: the effect of one atomic step in each state. -/

theorem qstep_eq_start_hit {n : Nat} {faceId : Int} {fetchOk : Bool}
    {cfg : QConfig n} {i : Fin n} (h : cfg.pc i = .start')
    (hid : ¬faceId < 0) (hf : cfg.file = true) :
    qstep faceId fetchOk cfg i
      = { cfg with pc := Function.update cfg.pc i (.done (some ())) } := by
  unfold qstep
  rw [h, if_neg hid, if_pos hf]

theorem qstep_eq_start_miss {n : Nat} {faceId : Int} {fetchOk : Bool}
    {cfg : QConfig n} {i : Fin n} (h : cfg.pc i = .start')
    (hid : ¬faceId < 0) (hf : cfg.file = false) :
    qstep faceId fetchOk cfg i
      = { cfg with pc := Function.update cfg.pc i .premkdir } := by
  unfold qstep
  rw [h, if_neg hid, if_neg (by rw [hf]; exact Bool.false_ne_true)]

theorem qstep_eq_premkdir {n : Nat} {faceId : Int} {fetchOk : Bool}
    {cfg : QConfig n} {i : Fin n} (h : cfg.pc i = .premkdir) :
    qstep faceId fetchOk cfg i
      = { cfg with dirMade := true
                 , pc := Function.update cfg.pc i .arrived } := by
  unfold qstep
  rw [h]

theorem qstep_eq_arrived_free {n : Nat} {faceId : Int} {fetchOk : Bool}
    {cfg : QConfig n} {i : Fin n} (h : cfg.pc i = .arrived)
    (hr : cfg.reg = none) :
    qstep faceId fetchOk cfg i
      = { cfg with reg := some i
                 , pc := Function.update cfg.pc i .ownerFetch } := by
  unfold qstep
  rw [h, hr]

theorem qstep_eq_arrived_taken {n : Nat} {faceId : Int} {fetchOk : Bool}
    {cfg : QConfig n} {i o : Fin n} (h : cfg.pc i = .arrived)
    (hr : cfg.reg = some o) :
    qstep faceId fetchOk cfg i
      = { cfg with pc := Function.update cfg.pc i (.waiting o) } := by
  unfold qstep
  rw [h, hr]

theorem qstep_eq_fetch {n : Nat} {faceId : Int} {fetchOk : Bool}
    {cfg : QConfig n} {i : Fin n} (h : cfg.pc i = .ownerFetch) :
    qstep faceId fetchOk cfg i
      = { cfg with fetchCount := cfg.fetchCount + 1
                 , file := cfg.file || fetchOk
                 , pc := Function.update cfg.pc i .ownerResolve } := by
  unfold qstep
  rw [h]

theorem qstep_eq_resolve {n : Nat} {faceId : Int} {fetchOk : Bool}
    {cfg : QConfig n} {i : Fin n} (h : cfg.pc i = .ownerResolve)
    (hr : cfg.reg = some i) :
    qstep faceId fetchOk cfg i
      = { cfg with futVal := Function.update cfg.futVal i (some fetchOk)
                 , reg := none
                 , popCount := cfg.popCount + 1
                 , pc := Function.update cfg.pc i .returning } := by
  unfold qstep
  rw [h]
  simp [hr]

theorem qstep_eq_wait_pending {n : Nat} {faceId : Int} {fetchOk : Bool}
    {cfg : QConfig n} {i o : Fin n} (h : cfg.pc i = .waiting o)
    (hf : cfg.futVal o = none) : qstep faceId fetchOk cfg i = cfg := by
  unfold qstep
  rw [h]
  dsimp only
  rw [hf]

theorem qstep_eq_wait_ready {n : Nat} {faceId : Int} {fetchOk : Bool}
    {cfg : QConfig n} {i o : Fin n} {b : Bool} (h : cfg.pc i = .waiting o)
    (hf : cfg.futVal o = some b) :
    qstep faceId fetchOk cfg i
      = { cfg with pc := Function.update cfg.pc i .returning } := by
  unfold qstep
  rw [h]
  dsimp only
  rw [hf]

theorem qstep_eq_returning {n : Nat} {faceId : Int} {fetchOk : Bool}
    {cfg : QConfig n} {i : Fin n} (h : cfg.pc i = .returning) :
    qstep faceId fetchOk cfg i
      = { cfg with
            pc := Function.update cfg.pc i
                    (.done (if cfg.file then some () else none)) } := by
  unfold qstep
  rw [h]

theorem qstep_eq_done {n : Nat} {faceId : Int} {fetchOk : Bool}
    {cfg : QConfig n} {i : Fin n} {r : Option Unit}
    (h : cfg.pc i = .done r) : qstep faceId fetchOk cfg i = cfg := by
  unfold qstep
  rw [h]

/-- A caller is past the registration span (cache.py 145-147). -/
def qregistered {n : Nat} (cfg : QConfig n) (i : Fin n) : Prop :=
  cfg.pc i ≠ .start' ∧ cfg.pc i ≠ .premkdir ∧ cfg.pc i ≠ .arrived

instance {n : Nat} (cfg : QConfig n) (i : Fin n) :
    Decidable (qregistered cfg i) := by
  unfold qregistered
  infer_instance

/-- Reachability invariant of the single-flight protocol (for a
non-negative id): ties the registry entry, the owners' program counters,
the futures and the event counters together. -/
structure QInv {n : Nat} (fetchOk : Bool) (cfg : QConfig n) : Prop where
  file_fetch : cfg.file = true → fetchOk = true ∧ 1 ≤ cfg.fetchCount
  reg_owner : ∀ o, cfg.reg = some o →
    (cfg.pc o = .ownerFetch ∨ cfg.pc o = .ownerResolve) ∧ cfg.futVal o = none
  owner_reg : ∀ i, cfg.pc i = .ownerFetch ∨ cfg.pc i = .ownerResolve →
    cfg.reg = some i
  wait_reg : ∀ i o, cfg.pc i = .waiting o → cfg.futVal o = none →
    cfg.reg = some o
  early_fut : ∀ i, cfg.pc i = .start' ∨ cfg.pc i = .premkdir ∨
    cfg.pc i = .arrived → cfg.futVal i = none
  resolve_fetched : ∀ i, cfg.pc i = .ownerResolve → 1 ≤ cfg.fetchCount
  fut_fetched : ∀ i b, cfg.futVal i = some b → 1 ≤ cfg.fetchCount
  pop_zero : cfg.fetchCount = 0 → cfg.popCount = 0
  ret_fetched : ∀ i, cfg.pc i = .returning → 1 ≤ cfg.fetchCount
  done_fetched : ∀ i r, cfg.pc i = .done r → 1 ≤ cfg.fetchCount

theorem qinit_inv (n : Nat) (fetchOk : Bool) : QInv fetchOk (qinit n) := by
  constructor <;> intros <;> simp_all [qinit]

/-- Steps that only move caller `i`'s program counter (and possibly create
the directory) preserve the invariant, under side conditions matching the
possible such moves. -/
theorem QInv_pc_update {n : Nat} {fetchOk : Bool} {cfg : QConfig n}
    (hinv : QInv fetchOk cfg) (i : Fin n) (v : QPC n) (dm : Bool)
    (h1 : v ≠ .ownerFetch ∧ v ≠ .ownerResolve)
    (h2 : cfg.pc i ≠ .ownerFetch ∧ cfg.pc i ≠ .ownerResolve)
    (h3 : ∀ o, v = .waiting o → cfg.futVal o = none → cfg.reg = some o)
    (h4a : v = .returning → 1 ≤ cfg.fetchCount)
    (h4b : ∀ r, v = .done r → 1 ≤ cfg.fetchCount)
    (h5 : v = .start' ∨ v = .premkdir ∨ v = .arrived →
      cfg.futVal i = none) :
    QInv fetchOk
      { cfg with dirMade := dm, pc := Function.update cfg.pc i v } := by
  refine { file_fetch := hinv.file_fetch, fut_fetched := hinv.fut_fetched
         , pop_zero := hinv.pop_zero, reg_owner := ?_, owner_reg := ?_
         , wait_reg := ?_, early_fut := ?_, resolve_fetched := ?_
         , ret_fetched := ?_, done_fetched := ?_ }
  · intro o hro
    have hold := hinv.reg_owner o hro
    have hne : o ≠ i := by
      intro he
      subst he
      rcases hold.1 with h | h
      · exact h2.1 h
      · exact h2.2 h
    dsimp only
    rw [Function.update_noteq hne]
    exact hold
  · intro j hj
    dsimp only at hj ⊢
    by_cases hji : j = i
    · subst hji
      rw [Function.update_same] at hj
      rcases hj with h | h
      · exact absurd h h1.1
      · exact absurd h h1.2
    · rw [Function.update_noteq hji] at hj
      exact hinv.owner_reg j hj
  · intro j o hj hf
    dsimp only at hj hf ⊢
    by_cases hji : j = i
    · subst hji
      rw [Function.update_same] at hj
      exact h3 o hj hf
    · rw [Function.update_noteq hji] at hj
      exact hinv.wait_reg j o hj hf
  · intro j hj
    dsimp only at hj ⊢
    by_cases hji : j = i
    · subst hji
      rw [Function.update_same] at hj
      exact h5 hj
    · rw [Function.update_noteq hji] at hj
      exact hinv.early_fut j hj
  · intro j hj
    dsimp only at hj ⊢
    by_cases hji : j = i
    · subst hji
      rw [Function.update_same] at hj
      exact absurd hj h1.2
    · rw [Function.update_noteq hji] at hj
      exact hinv.resolve_fetched j hj
  · intro j hj
    dsimp only at hj ⊢
    by_cases hji : j = i
    · subst hji
      rw [Function.update_same] at hj
      exact h4a hj
    · rw [Function.update_noteq hji] at hj
      exact hinv.ret_fetched j hj
  · intro j r hj
    dsimp only at hj ⊢
    by_cases hji : j = i
    · subst hji
      rw [Function.update_same] at hj
      exact h4b r hj
    · rw [Function.update_noteq hji] at hj
      exact hinv.done_fetched j r hj

/-- Every atomic step of the protocol preserves the invariant (for a
non-negative id). -/
theorem qstep_inv {n : Nat} {faceId : Int} {fetchOk : Bool}
    (hid : 0 ≤ faceId) {cfg : QConfig n} (hinv : QInv fetchOk cfg)
    (i : Fin n) : QInv fetchOk (qstep faceId fetchOk cfg i) := by
  have hnneg : ¬faceId < 0 := not_lt.mpr hid
  cases hpc : cfg.pc i with
  | start' =>
    by_cases hfile : cfg.file
    · rw [qstep_eq_start_hit hpc hnneg hfile]
      refine QInv_pc_update hinv i _ cfg.dirMade ⟨nofun, nofun⟩ ?_ ?_ ?_ ?_ ?_
      · rw [hpc]; exact ⟨nofun, nofun⟩
      · exact fun o ho => nomatch ho
      · exact fun hr => nomatch hr
      · exact fun r _ => (hinv.file_fetch hfile).2
      · rintro (h | h | h) <;> exact nomatch h
    · rw [qstep_eq_start_miss hpc hnneg (by simpa using hfile)]
      refine QInv_pc_update hinv i _ cfg.dirMade ⟨nofun, nofun⟩ ?_ ?_ ?_ ?_ ?_
      · rw [hpc]; exact ⟨nofun, nofun⟩
      · exact fun o ho => nomatch ho
      · exact fun hr => nomatch hr
      · exact fun r hr => nomatch hr
      · exact fun _ => hinv.early_fut i (Or.inl hpc)
  | premkdir =>
    rw [qstep_eq_premkdir hpc]
    refine QInv_pc_update hinv i _ true ⟨nofun, nofun⟩ ?_ ?_ ?_ ?_ ?_
    · rw [hpc]; exact ⟨nofun, nofun⟩
    · exact fun o ho => nomatch ho
    · exact fun hr => nomatch hr
    · exact fun r hr => nomatch hr
    · exact fun _ => hinv.early_fut i (Or.inr (Or.inl hpc))
  | arrived =>
    cases hr : cfg.reg with
    | some o =>
      rw [qstep_eq_arrived_taken hpc hr]
      refine QInv_pc_update hinv i _ cfg.dirMade ⟨nofun, nofun⟩ ?_ ?_ ?_ ?_ ?_
      · rw [hpc]; exact ⟨nofun, nofun⟩
      · intro o' ho' _
        injection ho' with h
        subst h
        exact hr
      · exact fun hr' => nomatch hr'
      · exact fun r hr' => nomatch hr'
      · exact fun _ => hinv.early_fut i (Or.inr (Or.inr hpc))
    | none =>
      rw [qstep_eq_arrived_free hpc hr]
      refine { file_fetch := hinv.file_fetch
             , fut_fetched := hinv.fut_fetched
             , pop_zero := hinv.pop_zero
             , reg_owner := ?_, owner_reg := ?_, wait_reg := ?_
             , early_fut := ?_, resolve_fetched := ?_
             , ret_fetched := ?_, done_fetched := ?_ }
      · intro o hro
        dsimp only at hro ⊢
        injection hro with h
        subst h
        rw [Function.update_same]
        exact ⟨Or.inl rfl, hinv.early_fut i (Or.inr (Or.inr hpc))⟩
      · intro j hj
        dsimp only at hj ⊢
        by_cases hji : j = i
        · subst hji; rfl
        · rw [Function.update_noteq hji] at hj
          have h2 := hinv.owner_reg j hj
          rw [hr] at h2
          exact nomatch h2
      · intro j o hj hf
        dsimp only at hj hf ⊢
        by_cases hji : j = i
        · subst hji
          rw [Function.update_same] at hj
          exact nomatch hj
        · rw [Function.update_noteq hji] at hj
          have h2 := hinv.wait_reg j o hj hf
          rw [hr] at h2
          exact nomatch h2
      · intro j hj
        dsimp only at hj ⊢
        by_cases hji : j = i
        · subst hji
          rw [Function.update_same] at hj
          rcases hj with h | h | h <;> exact nomatch h
        · rw [Function.update_noteq hji] at hj
          exact hinv.early_fut j hj
      · intro j hj
        dsimp only at hj ⊢
        by_cases hji : j = i
        · subst hji
          rw [Function.update_same] at hj
          exact nomatch hj
        · rw [Function.update_noteq hji] at hj
          exact hinv.resolve_fetched j hj
      · intro j hj
        dsimp only at hj ⊢
        by_cases hji : j = i
        · subst hji
          rw [Function.update_same] at hj
          exact nomatch hj
        · rw [Function.update_noteq hji] at hj
          exact hinv.ret_fetched j hj
      · intro j r hj
        dsimp only at hj ⊢
        by_cases hji : j = i
        · subst hji
          rw [Function.update_same] at hj
          exact nomatch hj
        · rw [Function.update_noteq hji] at hj
          exact hinv.done_fetched j r hj
  | ownerFetch =>
    have hri : cfg.reg = some i := hinv.owner_reg i (Or.inl hpc)
    have hfv : cfg.futVal i = none := (hinv.reg_owner i hri).2
    rw [qstep_eq_fetch hpc]
    refine { file_fetch := ?_, reg_owner := ?_, owner_reg := ?_
           , wait_reg := ?_, early_fut := ?_
           , resolve_fetched := ?_
           , fut_fetched := ?_
           , pop_zero := ?_
           , ret_fetched := ?_
           , done_fetched := ?_ }
    case refine_6 => intro j _; dsimp only; omega
    case refine_7 => intro j b _; dsimp only; omega
    case refine_8 => intro h; dsimp only at h; omega
    case refine_9 => intro j _; dsimp only; omega
    case refine_10 => intro j r _; dsimp only; omega
    · intro hf
      dsimp only at hf ⊢
      cases hcf : cfg.file with
      | true => exact ⟨(hinv.file_fetch hcf).1, by omega⟩
      | false =>
        rw [hcf] at hf
        simp only [Bool.false_or] at hf
        exact ⟨hf, by omega⟩
    · intro o hro
      dsimp only at hro ⊢
      rw [hri] at hro
      injection hro with h
      subst h
      rw [Function.update_same]
      exact ⟨Or.inr rfl, hfv⟩
    · intro j hj
      dsimp only at hj ⊢
      by_cases hji : j = i
      · subst hji; exact hri
      · rw [Function.update_noteq hji] at hj
        exact hinv.owner_reg j hj
    · intro j o hj hf
      dsimp only at hj hf ⊢
      by_cases hji : j = i
      · subst hji
        rw [Function.update_same] at hj
        exact nomatch hj
      · rw [Function.update_noteq hji] at hj
        exact hinv.wait_reg j o hj hf
    · intro j hj
      dsimp only at hj ⊢
      by_cases hji : j = i
      · subst hji
        rw [Function.update_same] at hj
        rcases hj with h | h | h <;> exact nomatch h
      · rw [Function.update_noteq hji] at hj
        exact hinv.early_fut j hj
  | ownerResolve =>
    have hri : cfg.reg = some i := hinv.owner_reg i (Or.inr hpc)
    have hcnt : 1 ≤ cfg.fetchCount := hinv.resolve_fetched i hpc
    rw [qstep_eq_resolve hpc hri]
    refine { file_fetch := hinv.file_fetch
           , reg_owner := ?_
           , owner_reg := ?_, wait_reg := ?_, early_fut := ?_
           , resolve_fetched := ?_, fut_fetched := ?_
           , pop_zero := ?_
           , ret_fetched := fun j _ => hcnt
           , done_fetched := fun j r _ => hcnt }
    case refine_1 => intro o hro; dsimp only at hro; exact nomatch hro
    case refine_7 => intro h; dsimp only at h; omega
    · intro j hj
      dsimp only at hj ⊢
      by_cases hji : j = i
      · subst hji
        rw [Function.update_same] at hj
        rcases hj with h | h <;> exact nomatch h
      · rw [Function.update_noteq hji] at hj
        have h2 := hinv.owner_reg j hj
        rw [hri] at h2
        injection h2 with h
        exact absurd h.symm hji
    · intro j o hj hf
      dsimp only at hj hf ⊢
      by_cases hji : j = i
      · subst hji
        rw [Function.update_same] at hj
        exact nomatch hj
      · rw [Function.update_noteq hji] at hj
        by_cases hoi : o = i
        · subst hoi
          rw [Function.update_same] at hf
          exact nomatch hf
        · rw [Function.update_noteq hoi] at hf
          have h2 := hinv.wait_reg j o hj hf
          rw [hri] at h2
          injection h2 with h
          exact absurd h.symm hoi
    · intro j hj
      dsimp only at hj ⊢
      by_cases hji : j = i
      · subst hji
        rw [Function.update_same] at hj
        rcases hj with h | h | h <;> exact nomatch h
      · rw [Function.update_noteq hji] at hj
        rw [Function.update_noteq hji]
        exact hinv.early_fut j hj
    · intro j hj
      dsimp only at hj ⊢
      by_cases hji : j = i
      · subst hji
        rw [Function.update_same] at hj
        exact nomatch hj
      · rw [Function.update_noteq hji] at hj
        exact hinv.resolve_fetched j hj
    · intro j b hj
      dsimp only at hj ⊢
      by_cases hji : j = i
      · exact hcnt
      · rw [Function.update_noteq hji] at hj
        exact hinv.fut_fetched j b hj
  | waiting o =>
    cases hf : cfg.futVal o with
    | none =>
      rw [qstep_eq_wait_pending hpc hf]
      exact hinv
    | some b =>
      rw [qstep_eq_wait_ready hpc hf]
      refine QInv_pc_update hinv i _ cfg.dirMade ⟨nofun, nofun⟩ ?_ ?_ ?_ ?_ ?_
      · rw [hpc]; exact ⟨nofun, nofun⟩
      · exact fun o' ho' => nomatch ho'
      · exact fun _ => hinv.fut_fetched o b hf
      · exact fun r hr => nomatch hr
      · rintro (h | h | h) <;> exact nomatch h
  | returning =>
    rw [qstep_eq_returning hpc]
    refine QInv_pc_update hinv i _ cfg.dirMade ⟨nofun, nofun⟩ ?_ ?_ ?_ ?_ ?_
    · rw [hpc]; exact ⟨nofun, nofun⟩
    · exact fun o ho => nomatch ho
    · exact fun hr => nomatch hr
    · exact fun r _ => hinv.ret_fetched i hpc
    · rintro (h | h | h) <;> exact nomatch h
  | done r =>
    rw [qstep_eq_done hpc]
    exact hinv

/-- The invariant holds after any schedule from any invariant state. -/
theorem qrun_inv {n : Nat} {faceId : Int} {fetchOk : Bool}
    (hid : 0 ≤ faceId) {cfg : QConfig n} (hinv : QInv fetchOk cfg)
    (s : List (Fin n)) : QInv fetchOk (qrun faceId fetchOk cfg s) := by
  induction s generalizing cfg with
  | nil => exact hinv
  | cons a s ih => exact ih (qstep_inv hid hinv a)

/-- Phase A of one joint attempt owned by `w`: every caller is registered on
`w`'s future and the download has not yet run. -/
def PhaseA {n : Nat} (cfg : QConfig n) (w : Fin n) : Prop :=
  cfg.reg = some w ∧ cfg.pc w = .ownerFetch ∧ cfg.fetchCount = 0 ∧
  cfg.popCount = 0 ∧ cfg.file = false ∧ (∀ j, cfg.futVal j = none) ∧
  ∀ j, j ≠ w → cfg.pc j = .waiting w

/-- Phase B: the download ran exactly once (file present iff it succeeded);
its outcome is not yet published. -/
def PhaseB {n : Nat} (fetchOk : Bool) (cfg : QConfig n) (w : Fin n) : Prop :=
  cfg.reg = some w ∧ cfg.pc w = .ownerResolve ∧ cfg.fetchCount = 1 ∧
  cfg.popCount = 0 ∧ cfg.file = fetchOk ∧ (∀ j, cfg.futVal j = none) ∧
  ∀ j, j ≠ w → cfg.pc j = .waiting w

/-- Phase C: the outcome is published and the registry entry was popped
exactly once, by the owner; callers drain to `done` with the one common
result. -/
def PhaseC {n : Nat} (fetchOk : Bool) (cfg : QConfig n) (w : Fin n) : Prop :=
  cfg.reg = none ∧ cfg.fetchCount = 1 ∧ cfg.popCount = 1 ∧
  cfg.file = fetchOk ∧ cfg.futVal w = some fetchOk ∧
  (cfg.pc w = .returning ∨ cfg.pc w = .done (qres fetchOk)) ∧
  ∀ j, j ≠ w → (cfg.pc j = .waiting w ∨ cfg.pc j = .returning ∨
    cfg.pc j = .done (qres fetchOk))

/-- The three phases a joint attempt moves through once all callers have
registered. -/
def QPost {n : Nat} (fetchOk : Bool) (cfg : QConfig n) (w : Fin n) : Prop :=
  PhaseA cfg w ∨ PhaseB fetchOk cfg w ∨ PhaseC fetchOk cfg w

theorem qpost_step {n : Nat} {faceId : Int} {fetchOk : Bool}
    {cfg : QConfig n} {w : Fin n} (hp : QPost fetchOk cfg w) (i : Fin n) :
    QPost fetchOk (qstep faceId fetchOk cfg i) w := by
  rcases hp with hA | hB | hC
  · obtain ⟨hreg, hpcw, hfc, hpop, hfile, hfut, hwait⟩ := hA
    by_cases hiw : i = w
    · subst hiw
      rw [qstep_eq_fetch hpcw]
      refine Or.inr (Or.inl ⟨hreg, ?_, ?_, hpop, ?_, hfut, ?_⟩)
      · exact Function.update_same i _ _
      · dsimp only
        omega
      · dsimp only
        rw [hfile, Bool.false_or]
      · intro j hj
        dsimp only
        rw [Function.update_noteq hj]
        exact hwait j hj
    · rw [qstep_eq_wait_pending (hwait i hiw) (hfut w)]
      exact Or.inl ⟨hreg, hpcw, hfc, hpop, hfile, hfut, hwait⟩
  · obtain ⟨hreg, hpcw, hfc, hpop, hfile, hfut, hwait⟩ := hB
    by_cases hiw : i = w
    · subst hiw
      rw [qstep_eq_resolve hpcw hreg]
      refine Or.inr (Or.inr ⟨rfl, hfc, ?_, hfile, ?_, ?_, ?_⟩)
      · dsimp only
        omega
      · exact Function.update_same i _ _
      · exact Or.inl (Function.update_same i _ _)
      · intro j hj
        dsimp only
        rw [Function.update_noteq hj]
        exact Or.inl (hwait j hj)
    · rw [qstep_eq_wait_pending (hwait i hiw) (hfut w)]
      exact Or.inr (Or.inl ⟨hreg, hpcw, hfc, hpop, hfile, hfut, hwait⟩)
  · obtain ⟨hreg, hfc, hpop, hfile, hfutw, hpcw, hoth⟩ := hC
    have hres : (if cfg.file then some () else none) = qres fetchOk := by
      rw [hfile, qres]
    by_cases hiw : i = w
    · subst hiw
      rcases hpcw with h | h
      · rw [qstep_eq_returning h]
        refine Or.inr (Or.inr ⟨hreg, hfc, hpop, hfile, hfutw, ?_, ?_⟩)
        · dsimp only
          rw [Function.update_same, hres]
          exact Or.inr rfl
        · intro j hj
          dsimp only
          rw [Function.update_noteq hj]
          exact hoth j hj
      · rw [qstep_eq_done h]
        exact Or.inr (Or.inr ⟨hreg, hfc, hpop, hfile, hfutw, Or.inr h, hoth⟩)
    · rcases hoth i hiw with h | h | h
      · rw [qstep_eq_wait_ready h hfutw]
        refine Or.inr (Or.inr ⟨hreg, hfc, hpop, hfile, hfutw, ?_, ?_⟩)
        · dsimp only
          rw [Function.update_noteq (Ne.symm hiw)]
          exact hpcw
        · intro j hj
          dsimp only
          by_cases hji : j = i
          · subst hji
            rw [Function.update_same]
            exact Or.inr (Or.inl rfl)
          · rw [Function.update_noteq hji]
            exact hoth j hj
      · rw [qstep_eq_returning h]
        refine Or.inr (Or.inr ⟨hreg, hfc, hpop, hfile, hfutw, ?_, ?_⟩)
        · dsimp only
          rw [Function.update_noteq (Ne.symm hiw)]
          exact hpcw
        · intro j hj
          dsimp only
          by_cases hji : j = i
          · subst hji
            rw [Function.update_same, hres]
            exact Or.inr (Or.inr rfl)
          · rw [Function.update_noteq hji]
            exact hoth j hj
      · rw [qstep_eq_done h]
        exact Or.inr (Or.inr ⟨hreg, hfc, hpop, hfile, hfutw, hpcw, hoth⟩)

theorem qrun_post {n : Nat} {faceId : Int} {fetchOk : Bool}
    {cfg : QConfig n} {w : Fin n} (hp : QPost fetchOk cfg w)
    (s : List (Fin n)) : QPost fetchOk (qrun faceId fetchOk cfg s) w := by
  induction s generalizing cfg with
  | nil => exact hp
  | cons a s ih => exact ih (qpost_step hp a)

/-- In an invariant state where every caller has registered and no download
has run yet, the configuration is exactly Phase A for a unique owner. -/
theorem phaseA_of_registered {n : Nat} {fetchOk : Bool} {cfg : QConfig n}
    (hn : 0 < n) (hinv : QInv fetchOk cfg)
    (hreg : ∀ i, qregistered cfg i) (hfc : cfg.fetchCount = 0) :
    ∃ w, PhaseA cfg w := by
  have hfile : cfg.file = false := by
    cases hcf : cfg.file with
    | true =>
      have := (hinv.file_fetch hcf).2
      omega
    | false => rfl
  have hfutall : ∀ j, cfg.futVal j = none := by
    intro j
    cases hv : cfg.futVal j with
    | none => rfl
    | some b =>
      have := hinv.fut_fetched j b hv
      omega
  have hpop := hinv.pop_zero hfc
  have classify : ∀ i, cfg.pc i = .ownerFetch ∨
      ∃ o, cfg.pc i = .waiting o ∧ cfg.reg = some o ∧
        cfg.pc o = .ownerFetch := by
    intro i
    obtain ⟨hs, hm, ha⟩ := hreg i
    cases hpc : cfg.pc i with
    | start' => exact absurd hpc hs
    | premkdir => exact absurd hpc hm
    | arrived => exact absurd hpc ha
    | ownerFetch => exact Or.inl rfl
    | ownerResolve =>
      have := hinv.resolve_fetched i hpc
      omega
    | waiting o =>
      have hro := hinv.wait_reg i o hpc (hfutall o)
      rcases (hinv.reg_owner o hro).1 with h | h
      · exact Or.inr ⟨o, rfl, hro, h⟩
      · have := hinv.resolve_fetched o h
        omega
    | returning =>
      have := hinv.ret_fetched i hpc
      omega
    | done r =>
      have := hinv.done_fetched i r hpc
      omega
  obtain ⟨w, hww, hwr⟩ : ∃ w, cfg.pc w = .ownerFetch ∧ cfg.reg = some w := by
    rcases classify ⟨0, hn⟩ with h | ⟨o, _, hro, ho⟩
    · exact ⟨⟨0, hn⟩, h, hinv.owner_reg _ (Or.inl h)⟩
    · exact ⟨o, ho, hro⟩
  refine ⟨w, hwr, hww, hfc, hpop, hfile, hfutall, ?_⟩
  intro j hj
  rcases classify j with h | ⟨o, hw2, hro, _⟩
  · have := hinv.owner_reg j (Or.inl h)
    rw [hwr] at this
    injection this with h2
    exact absurd h2.symm hj
  · rw [hwr] at hro
    injection hro with h2
    rw [← h2] at hw2
    exact hw2

/-- In a phase state where every caller has finished, the run is in Phase C
with every caller holding the common result. -/
theorem qpost_done {n : Nat} {fetchOk : Bool} {cfg : QConfig n} {w : Fin n}
    (hp : QPost fetchOk cfg w) (hdone : ∀ i, ∃ r, cfg.pc i = .done r) :
    cfg.fetchCount = 1 ∧ cfg.popCount = 1 ∧ cfg.reg = none ∧
    ∀ i, cfg.pc i = .done (qres fetchOk) := by
  rcases hp with hA | hB | hC
  · obtain ⟨r, hr⟩ := hdone w
    exact absurd (hA.2.1.symm.trans hr) nofun
  · obtain ⟨r, hr⟩ := hdone w
    exact absurd (hB.2.1.symm.trans hr) nofun
  · obtain ⟨hreg, hfc, hpop, _, _, hpcw, hoth⟩ := hC
    refine ⟨hfc, hpop, hreg, ?_⟩
    intro i
    obtain ⟨r, hr⟩ := hdone i
    by_cases hiw : i = w
    · subst hiw
      rcases hpcw with h | h
      · exact absurd (h.symm.trans hr) nofun
      · exact h
    · rcases hoth i hiw with h | h | h
      · exact absurd (h.symm.trans hr) nofun
      · exact absurd (h.symm.trans hr) nofun
      · exact h

/-- C4: for a never-before-cached non-negative id with no file on disk, in
every schedule of `n ≥ 1` concurrent `get_qface_image` callers in which all
callers register (reach the `setdefault` of cache.py 147) before any
download has resolved, and in which every caller eventually finishes:
exactly one download attempt is performed, the in-flight registry entry is
popped exactly once (by the owner, at cache.py 156-158, so the registry
retains no entry for the resolved attempt), and every caller returns the
same outcome — the local URI if the fetch succeeded, absent if it failed. -/
theorem C4_single_flight {n : Nat} (hn : 0 < n) (faceId : Int)
    (fetchOk : Bool) (hid : 0 ≤ faceId) (s1 s2 : List (Fin n))
    (hreg : ∀ i, qregistered (qrun faceId fetchOk (qinit n) s1) i)
    (hfc : (qrun faceId fetchOk (qinit n) s1).fetchCount = 0)
    (hdone : ∀ i, ∃ r,
      (qrun faceId fetchOk (qinit n) (s1 ++ s2)).pc i = .done r) :
    (qrun faceId fetchOk (qinit n) (s1 ++ s2)).fetchCount = 1 ∧
    (qrun faceId fetchOk (qinit n) (s1 ++ s2)).popCount = 1 ∧
    (qrun faceId fetchOk (qinit n) (s1 ++ s2)).reg = none ∧
    ∀ i, (qrun faceId fetchOk (qinit n) (s1 ++ s2)).pc i
      = .done (qres fetchOk) := by
  have hsplit : qrun faceId fetchOk (qinit n) (s1 ++ s2)
      = qrun faceId fetchOk (qrun faceId fetchOk (qinit n) s1) s2 := by
    unfold qrun
    rw [List.foldl_append]
  have hinv1 : QInv fetchOk (qrun faceId fetchOk (qinit n) s1) :=
    qrun_inv hid (qinit_inv n fetchOk) s1
  obtain ⟨w, hA⟩ := phaseA_of_registered hn hinv1 hreg hfc
  rw [hsplit] at hdone ⊢
  exact qpost_done (qrun_post (Or.inl hA) s2) hdone

/-- Witness for C4: two callers, id 0, failing download; both register,
the owner fetches once and publishes the failure, both return absent. -/
theorem C4_witness :
    (qrun 0 false (qinit 2) ([0, 0, 0, 1, 1, 1] ++ [0, 0, 1, 0, 1])).fetchCount
        = 1 ∧
    (qrun 0 false (qinit 2) ([0, 0, 0, 1, 1, 1] ++ [0, 0, 1, 0, 1])).popCount
        = 1 ∧
    (qrun 0 false (qinit 2) ([0, 0, 0, 1, 1, 1] ++ [0, 0, 1, 0, 1])).reg
        = none ∧
    ∀ i, (qrun 0 false (qinit 2) ([0, 0, 0, 1, 1, 1] ++ [0, 0, 1, 0, 1])).pc i
        = .done (qres false) :=
  C4_single_flight (by decide) 0 false (by decide) [0, 0, 0, 1, 1, 1]
    [0, 0, 1, 0, 1] (by decide) (by decide) (by decide)

/-! ## Snapshot assembly service (service.py)

The OneBot client is an oracle record (`none` = the call raised, of any
error type); info payloads are loosely-typed dicts; messages are lists of
normalized segments (`_normalize_message_payload`, service.py 179-203, is
the identity on that form).  The clock `now` is passed once per public
operation; `datetime.now()` is sampled per cache access in the source, but
no claim depends on time advancing within one call. -/

/-- A loosely-typed value inside an info dict. -/
inductive DVal where
  | s (v : String)
  | n (v : Int)
deriving DecidableEq, Repr

/-- Python truthiness of a dict value. -/
def dvTruthy : DVal → Bool
  | .s v => v ≠ ""
  | .n v => v ≠ 0

/-- Python `str(...)` / f-string rendering of a dict value. -/
def dvStr : DVal → String
  | .s v => v
  | .n v => toString v

/-- An info record from the platform: a Python dict with string keys. -/
abbrev Dict := List (String × DVal)

/-- `d.get(key)` (default `None`). -/
def dGet (d : Dict) (key : String) : Option DVal := aGet d key

/-- `d.get(key, "") or ""` as used for card/nickname/level/title/role
(service.py 98-102, 242-243): the value rendered as a string, falsy values
collapsed to the empty string. -/
def dGetStrE (d : Dict) (key : String) : String :=
  match dGet d key with
  | some v => if dvTruthy v then dvStr v else ""
  | none => ""

/-- Python `a or b` for a string `a` with fallback `b`. -/
def pyOr (a b : String) : String := if a ≠ "" then a else b

/-- `x or fallback` where `x` is an optional dict value rendered to string
(as in `seg.data.get("url") or seg.data.get("file") or ""`). -/
def pyOrD (a : Option DVal) (b : String) : String :=
  match a with
  | some v => if dvTruthy v then dvStr v else b
  | none => b

/-- `sender_level or ""` etc. for the optional caller-supplied strings
(service.py 105-108). -/
def pyOrOpt (o : Option String) (b : String) : String :=
  match o with
  | some v => if v ≠ "" then v else b
  | none => b

/-- A normalized OneBot v11 message segment as consumed by
`_extract_message_segments` (service.py 205-262); each constructor carries
the `data` fields its branch reads. -/
inductive MsgSeg where
  | text (s : String)
  | image (url : Option DVal) (file : Option DVal)
  | face (id : Option DVal)
  | emoji (t : Option DVal)
  | atSeg (qq : DVal)
  | reply (id : Option DVal)
  | other (ty : String)
deriving DecidableEq, Repr

/-- A `bot.get_msg` result as read by `_extract_reply_preview`
(service.py 160-170): sender dict, `time` field, `message` payload (already
in normalized segment form). -/
structure QuotedMsg where
  sender : Dict
  time : ℚ
  message : List MsgSeg
deriving DecidableEq, Repr

/-- The external OneBot client, as oracles: `none` models the call raising
(any error). -/
structure BotO where
  group_info : Int → Option Dict
  member_info : Int → Int → Option Dict
  get_msg : Int → Option QuotedMsg

/-- The cache manager state owned by a `MessageSnapper`, with dict
payloads. -/
abbrev SState := CMState Dict

/-- The fixed fallback group record (service.py 54). -/
def fallbackGroupInfo : Dict :=
  [("group_name", .s "未知群"), ("member_count", .n 0)]

/-- `MessageSnapper.get_group_info` (service.py 44-54): cache-first; on
miss call the client; on success write through to the cache; on any client
error return the fixed fallback.  Total — no error escapes. -/
def get_group_info (bot : BotO) (c : CMConfig) (st : SState) (gid : Int)
    (now : ℚ) : Dict × SState :=
  let g := get_group c st.group gid now
  match g.1 with
  | some cached => (cached, { st with group := g.2 })
  | none =>
    match bot.group_info gid with
    | some info => (info, { st with group := set_group g.2 gid info now })
    | none => (fallbackGroupInfo, { st with group := g.2 })

/-- `MessageSnapper.get_member_info` (service.py 56-68): like the group
path, but any client error yields the empty dict `{}` and nothing is
cached.  Total — no error escapes. -/
def get_member_info (bot : BotO) (c : CMConfig) (st : SState)
    (gid uid : Int) (now : ℚ) : Dict × SState :=
  let g := get_member c st.member gid uid now
  match g.1 with
  | some cached => (cached, { st with member := g.2 })
  | none =>
    match bot.member_info gid uid with
    | some info =>
      (info, { st with member := set_member g.2 gid uid info now })
    | none => ([], { st with member := g.2 })

/-- One renderable segment `{"type": ..., "content": ...}` produced by
`_extract_message_segments`. -/
structure RPart where
  ty : String
  content : String
deriving DecidableEq, Repr

/-- The per-segment extraction — the loop body of service.py 211-251 —
threading the cache state through the member-info lookup of an `at`
segment. -/
def segParts (bot : BotO) (c : CMConfig) (gid : Int) (now : ℚ)
    (st : SState) : MsgSeg → List RPart × SState
  | .text s => (if s ≠ "" then [⟨"text", s⟩] else [], st)
  | .image url file =>
    let image_url := pyOrD url (pyOrD file "")
    (if image_url ≠ "" then [⟨"image", image_url⟩]
     else [⟨"text", "[图片]"⟩], st)
  | .face id =>
    let fid := id.getD (.n 0)
    ([⟨"text", "[表情:" ++ dvStr fid ++ "]"⟩], st)
  | .emoji t =>
    let content := match t with | some v => dvStr v | none => "[emoji]"
    ([⟨"text", content⟩], st)
  | .atSeg qq =>
    let uid? : Option Int :=
      match qq with
      | .n v => some v
      | .s v => parseInt v.toList
    match uid? with
    | some uid =>
      let g := get_member_info bot c st gid uid now
      let card := dGetStrE g.1 "card"
      let nickname := dGetStrE g.1 "nickname"
      let name := pyOr card (pyOr nickname (toString uid))
      ([⟨"text", "@" ++ name ++ " "⟩], g.2)
    | none =>
      let name := pyOrD (some qq) ""
      ([⟨"text", "@" ++ name ++ " "⟩], st)
  | .reply _ => ([], st)
  | .other ty => ([⟨"text", "[" ++ ty ++ "]"⟩], st)

/-- The extraction loop over all segments (service.py 210-251). -/
def extractParts (bot : BotO) (c : CMConfig) (gid : Int) (now : ℚ) :
    SState → List MsgSeg → List RPart × SState
  | st, [] => ([], st)
  | st, seg :: rest =>
    let p := segParts bot c gid now st seg
    let r := extractParts bot c gid now p.2 rest
    (p.1 ++ r.1, r.2)

/-- The body of the adjacent-text merge loop (service.py 253-261), with
`acc` the current last element of `merged`: a next part that is text while
`acc` is text replaces `acc` by the pair's merge — the first content,
trailing whitespace stripped, a space, then the second content, leading
whitespace stripped — otherwise `acc` is emitted and the next part becomes
the new last element. -/
def mergeInto (acc : RPart) : List RPart → List RPart
  | [] => [acc]
  | p :: rest =>
    if acc.ty = "text" ∧ p.ty = "text" then
      mergeInto ⟨"text", acc.content.trimRight ++ " " ++ p.content.trimLeft⟩
        rest
    else acc :: mergeInto p rest

/-- The adjacent-text merge loop (service.py 253-261). -/
def mergeParts : List RPart → List RPart
  | [] => []
  | p :: rest => mergeInto p rest

/-- `MessageSnapper._extract_message_segments` (service.py 205-262). -/
def extract_message_segments (bot : BotO) (c : CMConfig) (gid : Int)
    (now : ℚ) (st : SState) (msg : List MsgSeg) : List RPart × SState :=
  let p := extractParts bot c gid now st msg
  (mergeParts p.1, p.2)

/-- `MessageSnapper._extract_text_content` (service.py 264-273). -/
def extract_text_content (bot : BotO) (c : CMConfig) (gid : Int) (now : ℚ)
    (st : SState) (msg : List MsgSeg) : String × SState :=
  let p := extract_message_segments bot c gid now st msg
  ((String.join (p.1.map
      (fun q => if q.ty = "image" then "[图片]" else q.content))).trim, p.2)

/-- `MessageSnapper._format_time` (service.py 136-140).  The exact
`strftime` text is outside the model: the numeric timestamp is rendered
with `toString` (no claim depends on the text; the "unknown time" branch
for an unparsable timestamp cannot arise on a numeric `ℚ` input). -/
def format_time (ts : ℚ) : String := toString ts

/-- The reply-preview record built at service.py 171-176. -/
structure ReplyPreview where
  sender_name : String
  time : String
  segments : List RPart
  content : String
deriving DecidableEq, Repr

/-- The first `reply`-typed segment's `id` field, if any (the loop of
service.py 148-153 settles on the first reply segment). -/
def firstReply? : List MsgSeg → Option (Option DVal)
  | [] => none
  | .reply id :: _ => some id
  | _ :: rest => firstReply? rest

/-- `MessageSnapper._extract_reply_preview` (service.py 142-177): a missing
id aborts with no preview; an unparsable id or a failing `get_msg` raise
inside the `try` and also yield no preview; otherwise the preview is built
from the quoted message, running segment extraction on its payload (one
level only). -/
def extract_reply_preview (bot : BotO) (c : CMConfig) (gid : Int) (now : ℚ)
    (st : SState) (msg : List MsgSeg) : Option ReplyPreview × SState :=
  match firstReply? msg with
  | none => (none, st)
  | some none => (none, st)
  | some (some mid) =>
    match (match mid with | .n v => some v | .s v => parseInt v.toList) with
    | none => (none, st)
    | some msgId =>
      match bot.get_msg msgId with
      | none => (none, st)
      | some quoted =>
        let sender_name :=
          pyOrD (dGet quoted.sender "card")
            (pyOrD (dGet quoted.sender "nickname")
              (pyOrD (dGet quoted.sender "user_id") "未知用户"))
        let p := extract_message_segments bot c gid now st quoted.message
        let q := extract_text_content bot c gid now p.2 quoted.message
        (some { sender_name := sender_name
              , time := format_time quoted.time
              , segments := p.1
              , content := pyOr q.1 "[消息]" }, q.2)

/-- `MessageSnapper._is_single_image_message` (service.py 275-280). -/
def is_single_image_message (segs : List RPart) : Bool :=
  match segs with
  | [p] => p.ty = "image" && p.content ≠ ""
  | _ => false

/-- The `templates` dictionary handed to the external renderer
(service.py 112-131); `avatar_url` is the template of service.py 21
instantiated with `user_id`.  The fixed font-family and template-path
configuration carry no message data and are omitted. -/
structure RenderData where
  group_name : String
  member_count : DVal
  avatar_url : String
  sender_name : String
  sender_id : Int
  level : String
  title : String
  role : String
  reply_preview : Option ReplyPreview
  message_segments : List RPart
  single_image_only : Bool
  message_content : String
  time : String
deriving DecidableEq, Repr

/-- `MessageSnapper.generate_snapshot` (service.py 70-134): extract the
reply preview, the renderable segments and the flat text; reject a message
with no segments and no preview with the distinguished `ValueError` text
(service.py 87-88) — the renderer is then never invoked; otherwise resolve
group and member info (cache-first, with fallbacks) and invoke the renderer
(`Except.ok` carries exactly the data of that invocation; the external
renderer itself is not modelled to fail).  `time` is the message timestamp;
`now` is the clock used by the cache reads/writes. -/
def generate_snapshot (bot : BotO) (c : CMConfig) (st : SState)
    (gid uid : Int) (msg : List MsgSeg) (time : ℚ)
    (sender_name sender_level sender_title sender_role : Option String)
    (now : ℚ) : Except String RenderData × SState :=
  let rp := extract_reply_preview bot c gid now st msg
  let sg := extract_message_segments bot c gid now rp.2 msg
  let ct := extract_text_content bot c gid now sg.2 msg
  let single_image_only := is_single_image_message sg.1
  if sg.1 = [] ∧ rp.1 = none then
    (.error "无法获取消息内容，可能包含不支持的消息类型", ct.2)
  else
    let time_str := format_time time
    let gi := get_group_info bot c ct.2 gid now
    let group_name :=
      match dGet gi.1 "group_name" with
      | some v => dvStr v
      | none => "未知群"
    let member_count := (dGet gi.1 "member_count").getD (.n 0)
    let mi := get_member_info bot c gi.2 gid uid now
    let fields :=
      if mi.1 ≠ [] then
        (dGetStrE mi.1 "level", dGetStrE mi.1 "title", dGetStrE mi.1 "role",
         pyOr (dGetStrE mi.1 "card")
           (pyOr (dGetStrE mi.1 "nickname") "未知用户"))
      else
        (pyOrOpt sender_level "", pyOrOpt sender_title "",
         pyOrOpt sender_role "", pyOrOpt sender_name "未知用户")
    (.ok { group_name := group_name
         , member_count := member_count
         , avatar_url :=
             "https://q1.qlogo.cn/g?b=qq&nk=" ++ toString uid ++ "&s=640"
         , sender_name := fields.2.2.2
         , sender_id := uid
         , level := fields.1
         , title := fields.2.1
         , role := fields.2.2.1
         , reply_preview := rp.1
         , message_segments := sg.1
         , single_image_only := single_image_only
         , message_content := ct.1
         , time := time_str }, mi.2)

/-- C6: `generate_snapshot` fails with the distinguished unsupported-content
`ValueError` text exactly when segment extraction yields no renderable
segment and no reply preview was produced; on that path no renderer data is
built (the renderer is never invoked), and conversely a message with at
least one extracted segment or a present reply preview never raises this
error. -/
theorem C6_empty_message_rejection (bot : BotO) (c : CMConfig) (st : SState)
    (gid uid : Int) (msg : List MsgSeg) (time : ℚ)
    (sn sl sti sr : Option String) (now : ℚ) :
    (generate_snapshot bot c st gid uid msg time sn sl sti sr now).1
      = .error "无法获取消息内容，可能包含不支持的消息类型"
    ↔ ((extract_message_segments bot c gid now
          (extract_reply_preview bot c gid now st msg).2 msg).1 = []
        ∧ (extract_reply_preview bot c gid now st msg).1 = none) := by
  unfold generate_snapshot
  dsimp only
  split
  next h => exact iff_of_true rfl h
  next h => exact iff_of_false (by simp) h

/-- C7: on a group-info cache miss, a failing client call makes
`get_group_info` return the fixed fallback record (`group_name` "未知群",
`member_count` 0) with nothing written to the cache, and the model is total
— no error escapes; a successful call is returned and written through to
the group cache stamped with the current time. -/
theorem C7_group_fallback (bot : BotO) (c : CMConfig) (st : SState)
    (gid : Int) (now : ℚ)
    (hmiss : (get_group c st.group gid now).1 = none) :
    (bot.group_info gid = none →
      get_group_info bot c st gid now
        = (fallbackGroupInfo,
            { st with group := (get_group c st.group gid now).2 })) ∧
    (∀ info, bot.group_info gid = some info →
      (get_group_info bot c st gid now).1 = info ∧
      aGet (get_group_info bot c st gid now).2.group gid
        = some (now, info)) := by
  unfold get_group_info
  dsimp only
  rw [hmiss]
  constructor
  · intro hfail
    rw [hfail]
  · intro info hinfo
    rw [hinfo]
    refine ⟨rfl, ?_⟩
    show aGet (set_group (get_group c st.group gid now).2 gid info now) gid
      = some (now, info)
    unfold set_group
    exact aGet_aSet_self _ _ _

/-- Witness for C7: an always-failing client on an empty cache. -/
theorem C7_witness :
    get_group_info ⟨fun _ => none, fun _ _ => none, fun _ => none⟩ ⟨1, 1⟩
        (emptyCMState Dict) 5 0
      = (fallbackGroupInfo,
          { emptyCMState Dict with
              group := (get_group ⟨1, 1⟩ (emptyCMState Dict).group 5 0).2 }) :=
  (C7_group_fallback ⟨fun _ => none, fun _ _ => none, fun _ => none⟩ ⟨1, 1⟩
    (emptyCMState Dict) 5 0 rfl).1 rfl

theorem segParts_types (bot : BotO) (c : CMConfig) (gid : Int) (now : ℚ)
    (st : SState) (seg : MsgSeg) (p : RPart)
    (hp : p ∈ (segParts bot c gid now st seg).1) :
    p.ty = "text" ∨ p.ty = "image" := by
  cases seg with
  | text s =>
    dsimp only [segParts] at hp
    split at hp
    · simp only [List.mem_singleton] at hp
      exact Or.inl (by rw [hp])
    · exact absurd hp (List.not_mem_nil p)
  | image url file =>
    dsimp only [segParts] at hp
    split at hp
    · simp only [List.mem_singleton] at hp
      exact Or.inr (by rw [hp])
    · simp only [List.mem_singleton] at hp
      exact Or.inl (by rw [hp])
  | face id =>
    dsimp only [segParts] at hp
    simp only [List.mem_singleton] at hp
    exact Or.inl (by rw [hp])
  | emoji t =>
    dsimp only [segParts] at hp
    simp only [List.mem_singleton] at hp
    exact Or.inl (by rw [hp])
  | atSeg qq =>
    dsimp only [segParts] at hp
    split at hp <;> simp only [List.mem_singleton] at hp <;>
      exact Or.inl (by rw [hp])
  | reply id =>
    dsimp only [segParts] at hp
    exact absurd hp (List.not_mem_nil p)
  | other ty =>
    dsimp only [segParts] at hp
    simp only [List.mem_singleton] at hp
    exact Or.inl (by rw [hp])

theorem extractParts_types (bot : BotO) (c : CMConfig) (gid : Int) (now : ℚ)
    (msg : List MsgSeg) : ∀ (st : SState) (p : RPart),
    p ∈ (extractParts bot c gid now st msg).1 →
    p.ty = "text" ∨ p.ty = "image" := by
  induction msg with
  | nil =>
    intro st p hp
    exact absurd hp (List.not_mem_nil p)
  | cons seg rest ih =>
    intro st p hp
    dsimp only [extractParts] at hp
    rcases List.mem_append.mp hp with h | h
    · exact segParts_types bot c gid now st seg p h
    · exact ih _ p h

theorem mergeInto_types (P : RPart → Prop)
    (hP : ∀ s, P ⟨"text", s⟩) (l : List RPart) : ∀ (acc : RPart),
    P acc → (∀ p ∈ l, P p) → ∀ p ∈ mergeInto acc l, P p := by
  induction l with
  | nil =>
    intro acc hacc _ p hp
    simp only [mergeInto, List.mem_singleton] at hp
    rw [hp]
    exact hacc
  | cons q rest ih =>
    intro acc hacc hl p hp
    dsimp only [mergeInto] at hp
    split at hp
    · exact ih _ (hP _) (fun x hx => hl x (List.mem_cons_of_mem q hx)) p hp
    · rcases List.mem_cons.mp hp with h | h
      · rw [h]
        exact hacc
      · exact ih _ (hl q (List.mem_cons_self q rest))
          (fun x hx => hl x (List.mem_cons_of_mem q hx)) p h

/-- The first element of the merge of `acc :: l` keeps `acc`'s type. -/
theorem mergeInto_head (l : List RPart) : ∀ (acc : RPart),
    ∃ c t, mergeInto acc l = c :: t ∧ c.ty = acc.ty := by
  induction l with
  | nil =>
    intro acc
    exact ⟨acc, [], rfl, rfl⟩
  | cons q rest ih =>
    intro acc
    dsimp only [mergeInto]
    split
    next h =>
      obtain ⟨c, t, he, hty⟩ := ih ⟨"text", acc.content.trimRight ++ " " ++
        q.content.trimLeft⟩
      exact ⟨c, t, he, by rw [hty, h.1]⟩
    next h =>
      exact ⟨acc, mergeInto q rest, rfl, rfl⟩

theorem mergeInto_chain (l : List RPart) : ∀ (acc : RPart),
    List.Chain' (fun a b => ¬(a.ty = "text" ∧ b.ty = "text"))
      (mergeInto acc l) := by
  induction l with
  | nil =>
    intro acc
    simp [mergeInto]
  | cons q rest ih =>
    intro acc
    dsimp only [mergeInto]
    split
    next h => exact ih _
    next h =>
      obtain ⟨c, t, he, hty⟩ := mergeInto_head rest q
      rw [he]
      refine List.chain'_cons.mpr ⟨?_, he ▸ ih q⟩
      rw [hty]
      exact h

theorem mergeParts_types (l : List RPart)
    (hl : ∀ p ∈ l, p.ty = "text" ∨ p.ty = "image") :
    ∀ p ∈ mergeParts l, p.ty = "text" ∨ p.ty = "image" := by
  cases l with
  | nil =>
    intro p hp
    exact absurd hp (List.not_mem_nil p)
  | cons q rest =>
    exact mergeInto_types _ (fun s => Or.inl rfl) rest q
      (hl q (List.mem_cons_self q rest))
      (fun x hx => hl x (List.mem_cons_of_mem q hx))

theorem mergeParts_chain (l : List RPart) :
    List.Chain' (fun a b => ¬(a.ty = "text" ∧ b.ty = "text"))
      (mergeParts l) := by
  cases l with
  | nil => simp [mergeParts]
  | cons q rest => exact mergeInto_chain rest q

/-- C9: the output of `_extract_message_segments` holds only parts of type
"text" or "image"; no two adjacent parts are both text; and whenever two
consecutive parts are both text, the merge loop fuses them into one text
part whose content is the first content with trailing whitespace stripped,
one space, then the second content with leading whitespace stripped. -/
theorem C9_segment_invariant (bot : BotO) (c : CMConfig) (gid : Int)
    (now : ℚ) (st : SState) (msg : List MsgSeg) :
    (∀ p ∈ (extract_message_segments bot c gid now st msg).1,
      p.ty = "text" ∨ p.ty = "image") ∧
    List.Chain' (fun a b => ¬(a.ty = "text" ∧ b.ty = "text"))
      (extract_message_segments bot c gid now st msg).1 ∧
    (∀ (a b : String) (rest : List RPart),
      mergeParts (⟨"text", a⟩ :: ⟨"text", b⟩ :: rest)
        = mergeParts
            (⟨"text", a.trimRight ++ " " ++ b.trimLeft⟩ :: rest)) := by
  refine ⟨?_, ?_, ?_⟩
  · exact mergeParts_types _ (fun p hp =>
      extractParts_types bot c gid now msg st p hp)
  · exact mergeParts_chain _
  · intro a b rest
    show mergeInto ⟨"text", a⟩ (⟨"text", b⟩ :: rest) = _
    dsimp only [mergeInto]
    rw [if_pos ⟨rfl, rfl⟩]
    rfl

/-- Witness for C9 at a concrete one-image message. -/
theorem C9_witness :
    (⟨"image", "u"⟩ : RPart).ty = "text" ∨
    (⟨"image", "u"⟩ : RPart).ty = "image" :=
  (C9_segment_invariant ⟨fun _ => none, fun _ _ => none, fun _ => none⟩
    ⟨1, 1⟩ 1 0 (emptyCMState Dict)
    [.image (some (.s "u")) none]).1 ⟨"image", "u"⟩ (by decide)

theorem aGet_aDel_ne {κ β : Type} [DecidableEq κ] (l : List (κ × β))
    (k k' : κ) (h : k ≠ k') : aGet (aDel l k') k = aGet l k := by
  induction l with
  | nil => rfl
  | cons hd tl ih =>
    obtain ⟨k2, v2⟩ := hd
    by_cases hk : k2 = k'
    · subst hk
      have hk2 : k2 ≠ k := fun he => h he.symm
      simp only [aDel, if_pos rfl, if_true, aGet, if_neg hk2]
    · simp only [aDel, if_neg hk, aGet]
      by_cases hk2 : k2 = k
      · rw [if_pos hk2, if_pos hk2]
      · rw [if_neg hk2, if_neg hk2]
        exact ih

/-- On a miss, `get_member` leaves no entry under the key (evicting a stale
one if present) and does not touch other keys. -/
theorem get_member_miss {α : Type} (c : CMConfig)
    (mc : List ((Int × Int) × (ℚ × α))) (gid uid : Int) (now : ℚ)
    (hnd : (mc.map Prod.fst).Nodup)
    (hmiss : (get_member c mc gid uid now).1 = none) :
    aGet (get_member c mc gid uid now).2 (gid, uid) = none ∧
    ∀ k, k ≠ (gid, uid) →
      aGet (get_member c mc gid uid now).2 k = aGet mc k := by
  unfold get_member at hmiss ⊢
  cases hin : aGet mc (gid, uid) with
  | none => exact ⟨hin, fun k _ => rfl⟩
  | some e =>
    obtain ⟨t, d⟩ := e
    rw [hin] at hmiss
    dsimp only at hmiss ⊢
    by_cases hf : now - t < memberCacheSeconds c
    · rw [if_pos hf] at hmiss
      exact absurd hmiss (by simp)
    · rw [if_neg hf]
      exact ⟨aGet_aDel_self mc hnd (gid, uid),
        fun k hk => aGet_aDel_ne mc k (gid, uid) hk⟩

theorem get_member_info_nil (bot : BotO) (c : CMConfig) (st : SState)
    (gid uid : Int) (now : ℚ) (hb : bot.member_info gid uid = none)
    (hm : st.member = []) :
    (get_member_info bot c st gid uid now).1 = [] ∧
    (get_member_info bot c st gid uid now).2.member = [] ∧
    (get_member_info bot c st gid uid now).2.group = st.group := by
  have h1 : get_member c st.member gid uid now = (none, st.member) := by
    rw [hm]
    rfl
  unfold get_member_info
  dsimp only
  rw [h1, hb]
  exact ⟨rfl, hm, rfl⟩

theorem segParts_member_nil (bot : BotO) (c : CMConfig) (gid : Int)
    (now : ℚ) (st : SState) (seg : MsgSeg)
    (hbot : ∀ g u, bot.member_info g u = none) (hm : st.member = []) :
    ((segParts bot c gid now st seg).2).member = [] ∧
    ((segParts bot c gid now st seg).2).group = st.group := by
  cases seg with
  | text s => exact ⟨hm, rfl⟩
  | image url file => exact ⟨hm, rfl⟩
  | face id => exact ⟨hm, rfl⟩
  | emoji t => exact ⟨hm, rfl⟩
  | atSeg qq =>
    dsimp only [segParts]
    rcases hq : (match qq with
      | DVal.n v => some v
      | DVal.s v => parseInt v.toList) with _ | uid
    · rw [hq]
      exact ⟨hm, rfl⟩
    · rw [hq]
      have h := get_member_info_nil bot c st gid uid now (hbot gid uid) hm
      exact ⟨h.2.1, h.2.2⟩
  | reply id => exact ⟨hm, rfl⟩
  | other ty => exact ⟨hm, rfl⟩

theorem extractParts_member_nil (bot : BotO) (c : CMConfig) (gid : Int)
    (now : ℚ) (hbot : ∀ g u, bot.member_info g u = none)
    (msg : List MsgSeg) : ∀ st : SState, st.member = [] →
    ((extractParts bot c gid now st msg).2).member = [] ∧
    ((extractParts bot c gid now st msg).2).group = st.group := by
  induction msg with
  | nil => exact fun st hm => ⟨hm, rfl⟩
  | cons seg rest ih =>
    intro st hm
    dsimp only [extractParts]
    have h1 := segParts_member_nil bot c gid now st seg hbot hm
    have h2 := ih _ h1.1
    exact ⟨h2.1, h2.2.trans h1.2⟩

theorem ems_member_nil (bot : BotO) (c : CMConfig) (gid : Int) (now : ℚ)
    (st : SState) (msg : List MsgSeg)
    (hbot : ∀ g u, bot.member_info g u = none) (hm : st.member = []) :
    ((extract_message_segments bot c gid now st msg).2).member = [] ∧
    ((extract_message_segments bot c gid now st msg).2).group = st.group :=
  extractParts_member_nil bot c gid now hbot msg st hm

theorem etc_member_nil (bot : BotO) (c : CMConfig) (gid : Int) (now : ℚ)
    (st : SState) (msg : List MsgSeg)
    (hbot : ∀ g u, bot.member_info g u = none) (hm : st.member = []) :
    ((extract_text_content bot c gid now st msg).2).member = [] ∧
    ((extract_text_content bot c gid now st msg).2).group = st.group :=
  ems_member_nil bot c gid now st msg hbot hm

theorem erp_member_nil (bot : BotO) (c : CMConfig) (gid : Int) (now : ℚ)
    (st : SState) (msg : List MsgSeg)
    (hbot : ∀ g u, bot.member_info g u = none) (hm : st.member = []) :
    ((extract_reply_preview bot c gid now st msg).2).member = [] ∧
    ((extract_reply_preview bot c gid now st msg).2).group = st.group := by
  unfold extract_reply_preview
  cases h1 : firstReply? msg with
  | none => exact ⟨hm, rfl⟩
  | some mid? =>
    cases mid? with
    | none => exact ⟨hm, rfl⟩
    | some mid =>
      dsimp only
      rcases h2 : (match mid with
        | DVal.n v => some v
        | DVal.s v => parseInt v.toList) with _ | msgId
      · rw [h2]
        exact ⟨hm, rfl⟩
      · rw [h2]
        dsimp only
        cases h3 : bot.get_msg msgId with
        | none => exact ⟨hm, rfl⟩
        | some quoted =>
          have e1 := ems_member_nil bot c gid now st quoted.message hbot hm
          have e2 := etc_member_nil bot c gid now _ quoted.message hbot e1.1
          exact ⟨e2.1, e2.2.trans e1.2⟩

theorem ggi_member (bot : BotO) (c : CMConfig) (st : SState) (gid : Int)
    (now : ℚ) :
    (get_group_info bot c st gid now).2.member = st.member := by
  unfold get_group_info
  dsimp only
  split
  · rfl
  · split <;> rfl

/-- C10: on a member-info cache miss with a failing client call,
`get_member_info` returns the empty record `{}` (not a named fallback) and
is total (never raises); no entry is inserted for the key (a stale entry is
at most evicted) and every other key is untouched.  Consequently, with an
always-failing member-info client and an empty member cache,
`generate_snapshot` renders the caller-supplied sender fields (name
defaulting to "未知用户", level/title/role to ""). -/
theorem C10_member_fallback (bot : BotO) (c : CMConfig) (st : SState)
    (gid uid : Int) (msg : List MsgSeg) (time : ℚ)
    (sn sl sti sr : Option String) (now : ℚ)
    (hnd : (st.member.map Prod.fst).Nodup)
    (hmiss : (get_member c st.member gid uid now).1 = none)
    (hfail : bot.member_info gid uid = none)
    (hbot : ∀ g u, bot.member_info g u = none)
    (hm : st.member = [])
    (hne : ¬((extract_message_segments bot c gid now
        (extract_reply_preview bot c gid now st msg).2 msg).1 = []
      ∧ (extract_reply_preview bot c gid now st msg).1 = none)) :
    ((get_member_info bot c st gid uid now).1 = [] ∧
      (get_member_info bot c st gid uid now).2.group = st.group ∧
      aGet (get_member_info bot c st gid uid now).2.member (gid, uid)
        = none ∧
      (∀ k, k ≠ (gid, uid) →
        aGet (get_member_info bot c st gid uid now).2.member k
          = aGet st.member k)) ∧
    ((generate_snapshot bot c st gid uid msg time sn sl sti sr now).1.map
        (fun d => (d.level, d.title, d.role, d.sender_name))
      = .ok (pyOrOpt sl "", pyOrOpt sti "", pyOrOpt sr "",
          pyOrOpt sn "未知用户")) := by
  constructor
  · have hlk := get_member_miss c st.member gid uid now hnd hmiss
    unfold get_member_info
    dsimp only
    rw [hmiss, hfail]
    exact ⟨rfl, rfl, hlk.1, hlk.2⟩
  · have e1 := erp_member_nil bot c gid now st msg hbot hm
    have e2 := ems_member_nil bot c gid now _ msg hbot e1.1
    have e3 := etc_member_nil bot c gid now _ msg hbot e2.1
    have e4 : (get_group_info bot c
        (extract_text_content bot c gid now
          (extract_message_segments bot c gid now
            (extract_reply_preview bot c gid now st msg).2 msg).2 msg).2
        gid now).2.member = [] := by
      rw [ggi_member]
      exact e3.1
    have e5 := get_member_info_nil bot c _ gid uid now (hbot gid uid) e4
    unfold generate_snapshot
    dsimp only
    rw [if_neg hne, if_neg (fun h => h e5.1)]
    rfl

/-- Witness for C10: an always-failing client, empty caches, a plain text
message and a caller-supplied sender name. -/
theorem C10_witness :
    (get_member_info ⟨fun _ => none, fun _ _ => none, fun _ => none⟩ ⟨1, 1⟩
        (emptyCMState Dict) 1 2 0).1 = [] ∧
    ((generate_snapshot ⟨fun _ => none, fun _ _ => none, fun _ => none⟩
        ⟨1, 1⟩ (emptyCMState Dict) 1 2 [.text "hi"] 0 (some "Bob") none none
        none 0).1.map (fun d => (d.level, d.title, d.role, d.sender_name))
      = .ok (pyOrOpt none "", pyOrOpt none "", pyOrOpt none "",
          pyOrOpt (some "Bob") "未知用户")) := by
  have h := C10_member_fallback
    ⟨fun _ => none, fun _ _ => none, fun _ => none⟩ ⟨1, 1⟩
    (emptyCMState Dict) 1 2 [.text "hi"] 0 (some "Bob") none none none 0
    (by simp [emptyCMState]) rfl rfl (fun g u => rfl) rfl (by decide)
  exact ⟨h.1.1, h.2⟩
